import Mathlib

/-!
# Verification of the ENTH merge-and-normalize pass and chunker

Shallow embedding of `beautify_ruby_class` and `batch_html_by_tokens`
from `src/nonAiVersion.py`.  Lines are modelled as Lean `String`s
(wrappers around `List Char`); all character-level operations
(`str.strip`, `str.startswith`, the regular expressions `include_re`,
`accessor_pattern`, `def_pattern`, `end_pattern`, `str.split("\n")`,
`"\n".join`) are implemented directly on the underlying character
lists, mirroring the Python semantics on ASCII input.
-/

namespace ENTH

/-- The whitespace characters recognised by Python `str.strip()` and the
regex class `\s` on ASCII text: space, tab, newline, carriage return,
vertical tab, form feed. -/
def pyIsSpace (c : Char) : Bool :=
  c == ' ' || c == '\t' || c == '\n' || c == '\r' || c == '\x0b' || c == '\x0c'

/-- Python `str.strip()` on the character list: drop leading and trailing
whitespace. -/
def stripChars (s : List Char) : List Char :=
  ((s.dropWhile pyIsSpace).reverse.dropWhile pyIsSpace).reverse

/-- Python `line.strip()` on a `String`. -/
def pstrip (s : String) : String := ⟨stripChars s.data⟩

/-- `code.replace("\r\n", "\n").replace("\r", "\n")` (line 147): one
left-to-right pass turning every `\r\n` pair and every remaining lone
`\r` into `\n`, which is exactly the composite of the two sequential
non-overlapping replacements. -/
def normalizeChars : List Char → List Char
  | [] => []
  | '\r' :: '\n' :: rest => '\n' :: normalizeChars rest
  | '\r' :: rest => '\n' :: normalizeChars rest
  | c :: rest => c :: normalizeChars rest

def normalize (s : String) : String := ⟨normalizeChars s.data⟩

/-- Python `str.split("\n")`: split on every newline; `""` splits to
`[""]`, a trailing newline yields a trailing empty piece. -/
def splitNl : List Char → List (List Char)
  | [] => [[]]
  | c :: rest =>
    if c = '\n' then [] :: splitNl rest
    else
      match splitNl rest with
      | l :: ls => (c :: l) :: ls
      | [] => [[c]]

def splitLinesStr (s : String) : List String := (splitNl s.data).map (⟨·⟩)

/-- Python `"\n".join(pieces)` on character lists: the pieces separated
by single newlines. -/
def joinNl : List (List Char) → List Char
  | [] => []
  | [l] => l
  | l :: ls => l ++ '\n' :: joinNl ls

/-- Python `"\n".join(lines)`. -/
def joinLinesStr (ls : List String) : String :=
  ⟨joinNl (ls.map String.data)⟩

/-- `stripped.startswith("class ")` used at line 157 on the stripped
line. -/
def isClassLine (l : String) : Bool :=
  "class ".data.isPrefixOf (stripChars l.data)

/-- `stripped == "end"` used at line 161 on the stripped line. -/
def isPlainEnd (l : String) : Bool :=
  stripChars l.data == "end".data

/-- Step 1 of `beautify_ruby_class` (lines 153-167): flatten all lines
that sit inside `class ... end` blocks, tracking nesting with a flat
counter.  A `class` line increments the counter and is dropped, a line
stripping to `end` decrements the counter (if positive) and is dropped
(it is also not copied at depth 0, where nothing is copied anyway), and
any other line is retained exactly when the counter is positive. -/
def flattenStep : Nat → List String → List String
  | _, [] => []
  | d, l :: rest =>
    if isClassLine l then flattenStep (d + 1) rest
    else if isPlainEnd l then
      (if 0 < d then flattenStep (d - 1) rest else flattenStep d rest)
    else if 0 < d then l :: flattenStep d rest
    else flattenStep d rest

/-- Lines 169-171: if the flattening pass retained nothing, fall back to
the entire input. -/
def contentLines (lines : List String) : List String :=
  if (flattenStep 0 lines).isEmpty then lines else flattenStep 0 lines

/-- The regex `^\s*include\s+PageObject\s*$` (line 178), applied to the
stripped line.  Matches optional whitespace, the literal `include`, at
least one whitespace character, the literal `PageObject`, optional
trailing whitespace. -/
def matchIncludeChars (s : List Char) : Bool :=
  let s1 := s.dropWhile pyIsSpace
  if "include".data.isPrefixOf s1 then
    match s1.drop 7 with
    | c :: rest =>
      pyIsSpace c &&
        (let s2 := rest.dropWhile pyIsSpace
         "PageObject".data.isPrefixOf s2 && (s2.drop 10).all pyIsSpace)
    | [] => false
  else false

def isIncludeLine (l : String) : Bool := matchIncludeChars (stripChars l.data)

/-- Step 2 (lines 176-185): the loop partitions the lines; the matching
(stripped) lines are collected and every other line is kept in order,
i.e. the two sides are the two filters of the stream. -/
def includesFound (ls : List String) : List String :=
  (ls.filter fun l => isIncludeLine l).map pstrip

def afterIncludes (ls : List String) : List String :=
  ls.filter fun l => !isIncludeLine l

/-- The fixed accessor keywords of lines 192-196. -/
def accessor_keywords : List String :=
  ["text_field", "hidden_field", "button", "link", "select_list", "checkbox",
   "radio_button", "radio_button_group", "textarea", "div", "span", "table",
   "cell", "image", "element", "heading", "paragraph"]

/-- One alternative of `accessor_pattern`: the keyword, then `\s*`, then
an opening parenthesis. -/
def kwMatchAt (kw : List Char) (s : List Char) : Bool :=
  kw.isPrefixOf s && ((s.drop kw.length).dropWhile pyIsSpace).head? == some '('

/-- The regex `^\s*(?:text_field|...)\s*\(` (line 198): after optional
leading whitespace, some alternative matches.  Regex alternation with
backtracking succeeds iff some alternative succeeds at that position. -/
def matchAccessorChars (s : List Char) : Bool :=
  let s1 := s.dropWhile pyIsSpace
  accessor_keywords.any fun kw => kwMatchAt kw.data s1

def isAccessorLine (l : String) : Bool := matchAccessorChars (stripChars l.data)

/-- Step 3 (lines 200-211): scan, moving accessor-matching lines (their
stripped form) into `accessors` unless already seen, every other line
into the remaining stream.  The Python `seen_accessors` set always holds
exactly the elements of the `accessors` list, so membership is tested on
the list. -/
def accessorGo : List String → List String → List String → List String × List String
  | [], accs, keep => (accs, keep)
  | l :: rest, accs, keep =>
    if isAccessorLine l then
      let norm := pstrip l
      if accs.contains norm then accessorGo rest accs keep
      else accessorGo rest (accs ++ [norm]) keep
    else accessorGo rest accs (keep ++ [l])

/-- The characters allowed in a method name by
`def_pattern = ^\s*def\s+([a-zA-Z0-9_!?]+)` (line 220): ASCII letters,
digits, underscore, bang, question mark. -/
def isNameChar (c : Char) : Bool :=
  ('a' ≤ c && c ≤ 'z') || ('A' ≤ c && c ≤ 'Z') || ('0' ≤ c && c ≤ '9') ||
    c == '_' || c == '!' || c == '?'

/-- `def_pattern` after the leading `\s*` has been consumed: the literal
`def`, at least one whitespace character, then the (greedy, non-empty)
run of name characters, which is the captured group. -/
def matchDefCore (s : List Char) : Option (List Char) :=
  if "def".data.isPrefixOf s then
    match s.drop 3 with
    | [] => none
    | c :: rest =>
      if pyIsSpace c then
        let nm := (rest.dropWhile pyIsSpace).takeWhile isNameChar
        if nm.isEmpty then none else some nm
      else none
  else none

/-- `def_pattern.match(line)` (line 242), returning the captured method
name. -/
def matchDefChars (s : List Char) : Option (List Char) :=
  matchDefCore (s.dropWhile pyIsSpace)

def matchDef (l : String) : Option String := (matchDefChars l.data).map (⟨·⟩)

/-- `end_pattern = ^\s*end\s*$` (line 221) applied to the raw line. -/
def isEndLine (l : String) : Bool :=
  let s1 := l.data.dropWhile pyIsSpace
  "end".data.isPrefixOf s1 && (s1.drop 3).all pyIsSpace

/-- `methods_extracted` is a Python dict mapping method names to lists of
captured line blocks; dicts preserve insertion order, so it is modelled
as an insertion-ordered association list. -/
abbrev MethodMap := List (String × List (List String))

/-- `methods_extracted[name].append(block)` with
`methods_extracted.setdefault`-style creation (lines 234-236): append the
block under an existing key in place, or add a new key at the end. -/
def fileBlock : MethodMap → String → List String → MethodMap
  | [], name, b => [(name, [b])]
  | (n, bs) :: rest, name, b =>
    if n = name then (n, bs ++ [b]) :: rest
    else (n, bs) :: fileBlock rest name b

/-- `flush_method` (lines 230-238): store the current block under the
current name, if a name is set and the block is non-empty. -/
def flush_method (ms : MethodMap) : Option String → List String → MethodMap
  | some n, ls => if ls.isEmpty then ms else fileBlock ms n ls
  | none, _ => ms

structure ExtractResult where
  methods : MethodMap
  leftover : List String
deriving Repr, DecidableEq

/-- Step 4 (lines 240-266): the two-state scanner over the remaining
lines.  A `def`-matching line while outside starts a capture (after a
no-op flush); while inside, a line matching `end_pattern` is appended
and the block is filed, any other line is appended; while outside, a
non-`def` line is a leftover.  At end of input a still-open capture is
force-filed. -/
def methodGo : List String → Bool → Option String → List String → MethodMap →
    List String → ExtractResult
  | [], inM, curN, curL, ms, lo =>
    if inM && !curL.isEmpty then ⟨flush_method ms curN curL, lo⟩ else ⟨ms, lo⟩
  | l :: rest, inM, curN, curL, ms, lo =>
    if (matchDef l).isSome && !inM then
      methodGo rest true (matchDef l) [l] (flush_method ms curN curL) lo
    else if inM then
      if isEndLine l then
        methodGo rest false none [] (flush_method ms curN (curL ++ [l])) lo
      else methodGo rest true curN (curL ++ [l]) ms lo
    else methodGo rest inM curN curL ms (lo ++ [l])

/-- The separator comment inserted between merged duplicate bodies
(line 290). -/
def mergeSeparator : String :=
  "      # ----- Merged from duplicate method definition -----"

/-- `block[1:-1]`: the inner lines of a captured block. -/
def innerLines (b : List String) : List String := (b.drop 1).dropLast

/-- Step 5, one method (lines 276-302): keep the first block's opening
line, its inner lines, then for each further block the separator comment
and that block's inner lines, then the first block's last line (or a
literal `end` if the first block had only its opening line). -/
def mergeBlocks : List (List String) → List String
  | [] => []
  | first :: others =>
    let body := innerLines first ++
      others.flatMap fun ob => mergeSeparator :: innerLines ob
    if 1 < first.length then first.take 1 ++ body ++ [first.getLastD ""]
    else first.take 1 ++ body ++ ["end"]

/-- Step 5 over the whole map (lines 272-302), in insertion order;
`if not blocks: continue` skips empty occurrence lists.  (Python joins
each method's lines with `"\n"` and the assembly step splits them again;
since no line contains a newline this round-trips, so the methods are
kept as line lists.) -/
def mergedMethods (ms : MethodMap) : List (List String) :=
  (ms.filter fun p => !p.2.isEmpty).map fun p => mergeBlocks p.2

/-- The structured result of steps 1-4. -/
structure MergeResult where
  foundInclude : Bool
  accessors : List String
  methods : MethodMap
  leftover : List String
deriving Repr, DecidableEq

/-- Steps 1-4 of `beautify_ruby_class` over the (already split)
lines. -/
def mergeLines (lines : List String) : MergeResult :=
  ⟨!(includesFound (contentLines lines)).isEmpty,
   (accessorGo (afterIncludes (contentLines lines)) [] []).1,
   (methodGo (accessorGo (afterIncludes (contentLines lines)) [] []).2
     false none [] [] []).methods,
   (methodGo (accessorGo (afterIncludes (contentLines lines)) [] []).2
     false none [] [] []).leftover⟩

/-- Step 6, assembly (lines 307-333). -/
def outputLines (r : MergeResult) (site_name : String) : List String :=
  ["class " ++ site_name, ""]
  ++ (if r.foundInclude then ["  include PageObject", ""] else [])
  ++ r.accessors.map (fun ac => "  " ++ ac)
  ++ [""]
  ++ (mergedMethods r.methods).flatMap (fun m => m.map (fun l => "  " ++ l) ++ [""])
  ++ (if (r.leftover.filter fun l => !(stripChars l.data).isEmpty).isEmpty then []
      else "  # leftover lines that did not belong to any recognized method or accessor"
        :: (r.leftover.filter fun l => !(stripChars l.data).isEmpty).map
          fun l => "  " ++ pstrip l)
  ++ ["end"]

/-- `beautify_ruby_class(combined_code, site_name)` (lines 131-335):
normalize line endings, split into lines, run the merge pipeline,
assemble and join. -/
def beautify_ruby_class (combined_code site_name : String) : String :=
  joinLinesStr (outputLines (mergeLines (splitLinesStr (normalize combined_code))) site_name)

/-- `count_tokens` (lines 43-48): `len(text.split())`, the number of
maximal runs of non-whitespace characters. -/
def countWordsAux : List Char → Bool → Nat
  | [], _ => 0
  | c :: rest, inWord =>
    if pyIsSpace c then countWordsAux rest false
    else (if inWord then 0 else 1) + countWordsAux rest true

def count_tokens (s : String) : Nat := countWordsAux s.data false

/-- The accumulation loop of `batch_html_by_tokens` (lines 62-87) over
the stringified direct children of the body.  Whitespace-only elements
are skipped; an element whose own token count exceeds the limit is
emitted alone (after flushing a pending accumulation); otherwise the
element joins the accumulation if it fits and starts a fresh one after a
flush if not; a final non-empty accumulation is flushed. -/
def batchLoop (limit : Nat) : List String → String → List String → List String
  | [], cur, batches => if cur.isEmpty then batches else batches ++ [cur]
  | e :: rest, cur, batches =>
    let es := pstrip e
    if es.isEmpty then batchLoop limit rest cur batches
    else if limit < count_tokens es then
      if cur.isEmpty then batchLoop limit rest "" (batches ++ [es])
      else batchLoop limit rest "" (batches ++ [cur, es])
    else if count_tokens cur + count_tokens es ≤ limit then
      batchLoop limit rest (cur ++ "\n" ++ es) batches
    else batchLoop limit rest es (batches ++ [cur])

/-- First-seen-order deduplication relative to an already-seen list:
each element is kept iff it has not occurred before (neither in `seen`
nor earlier in the list).  This captures the `seen_accessors` behaviour
of the accessor pass. -/
def firstSeen (seen : List String) : List String → List String
  | [] => []
  | x :: rest =>
    if seen.contains x then firstSeen seen rest
    else x :: firstSeen (seen ++ [x]) rest

/-- All lines of all filed occurrence blocks of a method map. -/
def allBlockLines (ms : MethodMap) : List String :=
  ms.flatMap fun p => p.2.flatten

/-- Every character that the assembly step can introduce on its own (the
fixed header, directive, separator, leftover-banner and end literals and
the indentation spaces); used to trace output characters back to the
input. -/
def litChars : List Char :=
  ("class   include PageObject" ++ mergeSeparator ++
    "  # leftover lines that did not belong to any recognized method or accessor" ++
    "end").data

/-- The batches before HTML wrapping. -/
def batches (elems : List String) (token_limit : Nat) : List String :=
  batchLoop token_limit elems "" []

/-- `batch_html_by_tokens` (lines 51-95) over the list of stringified
body children (the BeautifulSoup parsing and script removal producing
that element list are outside the textual core): the accumulation loop
followed by the minimal HTML wrapping of lines 89-95. -/
def batch_html_by_tokens (elems : List String) (token_limit : Nat) : List String :=
  (batches elems token_limit).map
    fun b => "<html><head></head><body>" ++ b ++ "</body></html>"

/-! ## Basic lemmas about the character-level helpers -/

theorem dropWhile_append_all {p : α → Bool} :
    ∀ {l1 : List α} (l2 : List α), (∀ x ∈ l1, p x = true) →
      (l1 ++ l2).dropWhile p = l2.dropWhile p := by
  intro l1
  induction l1 with
  | nil => intro l2 _; rfl
  | cons a as ih =>
    intro l2 h
    have ha : p a = true := h a (by simp)
    simp [List.dropWhile_cons, ha]
    exact ih l2 fun x hx => h x (by simp [hx])

theorem dropWhile_eq_self_of_head {p : α → Bool} :
    ∀ {l : List α}, (∀ c, l.head? = some c → p c = false) → l.dropWhile p = l := by
  intro l h
  cases l with
  | nil => rfl
  | cons a as => simp [List.dropWhile_cons, h a rfl]

theorem head?_dropWhile_not {p : α → Bool} :
    ∀ (l : List α) (c : α), (l.dropWhile p).head? = some c → p c = false := by
  intro l
  induction l with
  | nil => intro c h; simp [List.dropWhile] at h
  | cons a as ih =>
    intro c h
    by_cases ha : p a
    · rw [List.dropWhile_cons_of_pos ha] at h; exact ih c h
    · rw [List.dropWhile_cons_of_neg ha] at h
      simp at h
      subst h
      simpa using ha

theorem stripChars_head_not_space (s : List Char) (c : Char)
    (h : (stripChars s).head? = some c) : pyIsSpace c = false := by
  unfold stripChars at h
  set t := s.dropWhile pyIsSpace with ht
  have hsuff : (t.reverse.dropWhile pyIsSpace).reverse <+: t := by
    have h1 : t.reverse.dropWhile pyIsSpace <:+ t.reverse := List.dropWhile_suffix _
    exact List.reverse_suffix.mp (by simpa using h1)
  obtain ⟨r, hr⟩ := hsuff
  have hne : (t.reverse.dropWhile pyIsSpace).reverse ≠ [] := by
    intro hnil
    rw [hnil] at h
    simp at h
  have : t.head? = some c := by
    rw [← hr]
    cases hh : (t.reverse.dropWhile pyIsSpace).reverse with
    | nil => exact absurd hh hne
    | cons x xs =>
      rw [hh] at h
      simp at h
      subst h
      simp [hh]
  exact head?_dropWhile_not s c this

theorem stripChars_dropWhile (s : List Char) :
    (stripChars s).dropWhile pyIsSpace = stripChars s :=
  dropWhile_eq_self_of_head fun c hc => stripChars_head_not_space s c hc

theorem stripChars_spaces_append (sp s : List Char) (h : ∀ c ∈ sp, pyIsSpace c = true) :
    stripChars (sp ++ s) = stripChars s := by
  unfold stripChars
  rw [dropWhile_append_all s h]

theorem stripChars_last_not_space (s : List Char) (c : Char)
    (h : (stripChars s).getLast? = some c) : pyIsSpace c = false := by
  unfold stripChars at h
  rw [List.getLast?_reverse] at h
  exact head?_dropWhile_not _ c h

theorem stripChars_idem (s : List Char) : stripChars (stripChars s) = stripChars s := by
  have h1 : (stripChars s).dropWhile pyIsSpace = stripChars s := stripChars_dropWhile s
  show ((((stripChars s).dropWhile pyIsSpace).reverse.dropWhile pyIsSpace)).reverse = stripChars s
  rw [h1]
  have h2 : (stripChars s).reverse.dropWhile pyIsSpace = (stripChars s).reverse := by
    apply dropWhile_eq_self_of_head
    intro c hc
    rw [List.head?_reverse] at hc
    exact stripChars_last_not_space s c hc
  rw [h2, List.reverse_reverse]

theorem stripChars_sublist (s : List Char) : List.Sublist (stripChars s) s := by
  unfold stripChars
  have h1 : List.Sublist (s.dropWhile pyIsSpace) s := List.dropWhile_sublist _
  have h2 : List.Sublist ((s.dropWhile pyIsSpace).reverse.dropWhile pyIsSpace)
      (s.dropWhile pyIsSpace).reverse := List.dropWhile_sublist _
  have h3 := h2.reverse
  simp at h3
  exact h3.trans h1

theorem pstrip_idem (s : String) : pstrip (pstrip s) = pstrip s := by
  simp [pstrip, stripChars_idem]

theorem pstrip_indent (s : String) : pstrip ("  " ++ s) = pstrip s := by
  show (⟨stripChars (("  " ++ s).data)⟩ : String) = ⟨stripChars s.data⟩
  have : ("  " ++ s).data = [' ', ' '] ++ s.data := by
    simp [String.data_append]
  rw [this, stripChars_spaces_append]
  intro c hc
  simp at hc
  subst hc
  rfl

theorem pstrip_data (s : String) : (pstrip s).data = stripChars s.data := rfl

/-! ## Newline splitting and joining -/

theorem splitNl_ne_nil (s : List Char) : splitNl s ≠ [] := by
  cases s with
  | nil => simp [splitNl]
  | cons c rest =>
    simp only [splitNl]
    split
    · simp
    · split <;> simp_all

theorem splitNl_no_nl (s : List Char) (h : '\n' ∉ s) : splitNl s = [s] := by
  induction s with
  | nil => rfl
  | cons c rest ih =>
    have hc : ¬ c = '\n' := by intro hc; exact h (by simp [hc])
    have hr : '\n' ∉ rest := fun hm => h (by simp [hm])
    simp only [splitNl, if_neg hc, ih hr]

theorem splitNl_append_nl (a rest : List Char) (h : '\n' ∉ a) :
    splitNl (a ++ '\n' :: rest) = a :: splitNl rest := by
  induction a with
  | nil => simp [splitNl]
  | cons c cs ih =>
    have hc : ¬ c = '\n' := by intro hc; exact h (by simp [hc])
    have hcs : '\n' ∉ cs := fun hm => h (by simp [hm])
    show splitNl (c :: (cs ++ '\n' :: rest)) = _
    simp only [splitNl, if_neg hc, ih hcs]

theorem splitNl_joinNl : ∀ ls : List (List Char), ls ≠ [] → (∀ l ∈ ls, '\n' ∉ l) →
    splitNl (joinNl ls) = ls := by
  intro ls
  induction ls with
  | nil => intro h; exact absurd rfl h
  | cons a as ih =>
    intro _ hmem
    cases as with
    | nil => exact splitNl_no_nl a (hmem a (by simp))
    | cons b bs =>
      show splitNl (a ++ '\n' :: joinNl (b :: bs)) = a :: b :: bs
      rw [splitNl_append_nl a _ (hmem a (by simp))]
      rw [ih (by simp) fun l hl => hmem l (by simp [hl])]

theorem splitNl_mem_chars : ∀ (s : List Char) (l : List Char), l ∈ splitNl s →
    ∀ c ∈ l, c ∈ s := by
  intro s
  induction s with
  | nil => intro l hl c hc; simp [splitNl] at hl; subst hl; simp at hc
  | cons d rest ih =>
    intro l hl c hc
    by_cases hd : d = '\n'
    · subst hd
      simp only [splitNl, if_pos rfl] at hl
      rcases List.mem_cons.mp hl with rfl | hl2
      · simp at hc
      · exact List.mem_cons_of_mem _ (ih l hl2 c hc)
    · simp only [splitNl, if_neg hd] at hl
      rcases hsp : splitNl rest with _ | ⟨p, ps⟩
      · exact absurd hsp (splitNl_ne_nil rest)
      · rw [hsp] at hl
        rcases List.mem_cons.mp hl with rfl | hl2
        · rcases List.mem_cons.mp hc with rfl | hc2
          · simp
          · exact List.mem_cons_of_mem _ (ih p (by simp [hsp]) c hc2)
        · exact List.mem_cons_of_mem _ (ih l (by simp [hsp, hl2]) c hc)

theorem splitNl_mem_no_nl : ∀ (s : List Char) (l : List Char), l ∈ splitNl s →
    '\n' ∉ l := by
  intro s
  induction s with
  | nil => intro l hl; simp [splitNl] at hl; subst hl; simp
  | cons d rest ih =>
    intro l hl
    by_cases hd : d = '\n'
    · subst hd
      simp only [splitNl, if_pos rfl] at hl
      rcases List.mem_cons.mp hl with rfl | hl2
      · simp
      · exact ih l hl2
    · simp only [splitNl, if_neg hd] at hl
      rcases hsp : splitNl rest with _ | ⟨p, ps⟩
      · exact absurd hsp (splitNl_ne_nil rest)
      · rw [hsp] at hl
        rcases List.mem_cons.mp hl with rfl | hl2
        · intro hmem
          rcases List.mem_cons.mp hmem with h1 | h2
          · exact hd h1.symm
          · exact ih p (by simp [hsp]) h2
        · exact ih l (by simp [hsp, hl2])

/-! ## Normalization lemmas -/

theorem normalizeChars_no_cr : ∀ s : List Char, '\r' ∉ normalizeChars s := by
  intro s
  induction s using normalizeChars.induct with
  | case1 => simp [normalizeChars]
  | case2 rest ih => simp [normalizeChars]; simpa using ih
  | case3 rest h ih => simp [normalizeChars]; simpa using ih
  | case4 c rest h1 h2 ih =>
    simp only [normalizeChars]
    intro hmem
    rcases List.mem_cons.mp hmem with heq | h3
    · exact h2 heq.symm
    · exact ih h3

theorem normalizeChars_eq_self : ∀ s : List Char, '\r' ∉ s → normalizeChars s = s := by
  intro s
  induction s using normalizeChars.induct with
  | case1 => intro _; rfl
  | case2 rest ih => intro h; simp at h
  | case3 rest h ih => intro h2; simp at h2
  | case4 c rest h1 h2 ih =>
    intro h
    simp only [normalizeChars]
    rw [ih fun hm => h (by simp [hm])]

theorem normalize_idem (s : String) : normalize (normalize s) = normalize s := by
  show (⟨normalizeChars (normalize s).data⟩ : String) = normalize s
  have : (normalize s).data = normalizeChars s.data := rfl
  rw [this, normalizeChars_eq_self _ (normalizeChars_no_cr s.data)]
  rfl

theorem normalizeChars_mem : ∀ (s : List Char) (c : Char), c ∈ normalizeChars s →
    c ∈ s ∨ c = '\n' := by
  intro s
  induction s using normalizeChars.induct with
  | case1 => intro c hc; simp [normalizeChars] at hc
  | case2 rest ih =>
    intro c hc
    simp only [normalizeChars] at hc
    rcases List.mem_cons.mp hc with rfl | h2
    · right; rfl
    · rcases ih c h2 with h | h
      · left; simp [h]
      · right; exact h
  | case3 rest h ih =>
    intro c hc
    simp only [normalizeChars] at hc
    rcases List.mem_cons.mp hc with rfl | h2
    · right; rfl
    · rcases ih c h2 with h3 | h3
      · left; simp [h3]
      · right; exact h3
  | case4 d rest h1 h2 ih =>
    intro c hc
    simp only [normalizeChars] at hc
    rcases List.mem_cons.mp hc with rfl | h3
    · left; simp
    · rcases ih c h3 with h4 | h4
      · left; simp [h4]
      · right; exact h4

/-! ## Token counting -/

theorem countWordsAux_append_nl (a b : List Char) :
    ∀ w, countWordsAux (a ++ '\n' :: b) w = countWordsAux a w + countWordsAux b false := by
  induction a with
  | nil =>
    intro w
    show countWordsAux ('\n' :: b) w = countWordsAux [] w + countWordsAux b false
    have hnl : pyIsSpace '\n' = true := rfl
    simp [countWordsAux, hnl]
  | cons c cs ih =>
    intro w
    show countWordsAux (c :: (cs ++ '\n' :: b)) w = countWordsAux (c :: cs) w + _
    by_cases hc : pyIsSpace c
    · simp only [countWordsAux, hc, if_pos]
      exact ih false
    · simp only [countWordsAux, if_neg hc]
      rw [ih true]
      omega

theorem count_tokens_append (cur es : String) :
    count_tokens (cur ++ "\n" ++ es) = count_tokens cur + count_tokens es := by
  show countWordsAux (cur ++ "\n" ++ es).data false = _
  have : (cur ++ "\n" ++ es).data = cur.data ++ '\n' :: es.data := by
    simp [String.data_append]
  rw [this, countWordsAux_append_nl]
  rfl

/-! ## Block extraction (step 1) -/

theorem flattenStep_sublist : ∀ (d : Nat) (ls : List String),
    List.Sublist (flattenStep d ls) ls := by
  intro d ls
  induction ls generalizing d with
  | nil => simp [flattenStep]
  | cons l rest ih =>
    simp only [flattenStep]
    split
    · exact (ih (d + 1)).cons l
    · split
      · split
        · exact (ih (d - 1)).cons l
        · exact (ih d).cons l
      · split
        · exact (ih d).cons₂ l
        · exact (ih d).cons l

theorem flattenStep_mem {d : Nat} {ls : List String} {x : String}
    (h : x ∈ flattenStep d ls) : x ∈ ls :=
  (flattenStep_sublist d ls).mem h

theorem flattenStep_retained : ∀ (d : Nat) (ls : List String) (x : String),
    x ∈ flattenStep d ls → isClassLine x = false ∧ isPlainEnd x = false := by
  intro d ls
  induction ls generalizing d with
  | nil => intro x hx; simp [flattenStep] at hx
  | cons l rest ih =>
    intro x hx
    simp only [flattenStep] at hx
    by_cases hc : isClassLine l
    · rw [if_pos hc] at hx; exact ih (d + 1) x hx
    · rw [if_neg hc] at hx
      by_cases he : isPlainEnd l
      · rw [if_pos he] at hx
        split at hx
        · exact ih (d - 1) x hx
        · exact ih d x hx
      · rw [if_neg he] at hx
        split at hx
        · rcases List.mem_cons.mp hx with rfl | hx2
          · exact ⟨Bool.eq_false_iff.mpr hc, Bool.eq_false_iff.mpr he⟩
          · exact ih d x hx2
        · exact ih d x hx

theorem flattenStep_no_class : ∀ (ls : List String),
    (∀ l ∈ ls, isClassLine l = false) → flattenStep 0 ls = [] := by
  intro ls
  induction ls with
  | nil => intro _; rfl
  | cons l rest ih =>
    intro h
    have hl : isClassLine l = false := h l (by simp)
    have hrec := ih fun x hx => h x (by simp [hx])
    simp [flattenStep, hl, hrec]

theorem flattenStep_prefix_inert : ∀ (pre post : List String) (d : Nat), 0 < d →
    (∀ l ∈ pre, isClassLine l = false ∧ isPlainEnd l = false) →
    flattenStep d (pre ++ post) = pre ++ flattenStep d post := by
  intro pre
  induction pre with
  | nil => intro post d _ _; rfl
  | cons l rest ih =>
    intro post d hd h
    have hl := h l (by simp)
    simp only [List.cons_append, flattenStep, hl.1, hl.2]
    simp only [Bool.false_eq_true, if_false, if_pos hd]
    show l :: flattenStep d (rest ++ post) = l :: (rest ++ flattenStep d post)
    rw [ih post d hd fun x hx => h x (by simp [hx])]

theorem contentLines_subset {ls : List String} {x : String}
    (h : x ∈ contentLines ls) : x ∈ ls := by
  unfold contentLines at h
  split at h
  · exact h
  · exact flattenStep_mem h


/-- The fallback is taken exactly when the flattening pass retained
nothing. -/
theorem contentLines_eq_self_iff (ls : List String) :
    contentLines ls = ls ↔ flattenStep 0 ls = [] := by
  constructor
  · intro h
    by_contra hne
    unfold contentLines at h
    rw [if_neg (by simpa using hne)] at h
    by_cases hcl : ∃ l ∈ ls, isClassLine l = true
    · obtain ⟨l, hl, hcl⟩ := hcl
      rw [← h] at hl
      have := (flattenStep_retained 0 ls l hl).1
      rw [this] at hcl
      exact Bool.false_ne_true hcl
    · push_neg at hcl
      exact hne (flattenStep_no_class ls fun l hl => by
        have := hcl l hl
        exact Bool.eq_false_iff.mpr (by simpa using this))
  · intro h
    unfold contentLines
    rw [h]
    rfl

/-! ## Include and accessor extraction (steps 2 and 3) -/

theorem accessorGo_snd : ∀ (ls accs keep : List String),
    (accessorGo ls accs keep).2 = keep ++ ls.filter (fun l => !isAccessorLine l) := by
  intro ls
  induction ls with
  | nil => intro accs keep; simp [accessorGo]
  | cons l rest ih =>
    intro accs keep
    by_cases hl : isAccessorLine l
    · simp only [accessorGo, if_pos hl]
      by_cases hc : (accs.contains (pstrip l) : Bool)
      · rw [if_pos hc, ih]
        simp [List.filter_cons, hl]
      · rw [if_neg hc, ih]
        simp [List.filter_cons, hl]
    · simp only [accessorGo, if_neg hl]
      rw [ih]
      simp [List.filter_cons, Bool.eq_false_iff.mpr hl]

theorem accessorGo_fst : ∀ (ls accs keep : List String),
    (accessorGo ls accs keep).1 =
      accs ++ firstSeen accs ((ls.filter (fun l => isAccessorLine l)).map pstrip) := by
  intro ls
  induction ls with
  | nil => intro accs keep; simp [accessorGo, firstSeen]
  | cons l rest ih =>
    intro accs keep
    by_cases hl : isAccessorLine l
    · have hfil : (l :: rest).filter (fun x => isAccessorLine x) =
          l :: rest.filter (fun x => isAccessorLine x) := by
        simp [List.filter_cons, hl]
      rw [hfil]
      simp only [accessorGo, if_pos hl, List.map_cons, firstSeen]
      by_cases hc : (accs.contains (pstrip l) : Bool)
      · rw [if_pos hc, if_pos hc, ih]
      · rw [if_neg hc, if_neg hc, ih]
        simp
    · have hfil : (l :: rest).filter (fun x => isAccessorLine x) =
          rest.filter (fun x => isAccessorLine x) := by
        simp [List.filter_cons, Bool.eq_false_iff.mpr hl]
      rw [hfil]
      simp only [accessorGo, if_neg hl]
      rw [ih]

theorem firstSeen_not_seen : ∀ (ls seen : List String) (x : String),
    x ∈ firstSeen seen ls → x ∉ seen := by
  intro ls
  induction ls with
  | nil => intro seen x hx; simp [firstSeen] at hx
  | cons a rest ih =>
    intro seen x hx
    simp only [firstSeen] at hx
    split at hx
    · exact ih seen x hx
    · rcases List.mem_cons.mp hx with rfl | hx2
      · intro hmem
        simp_all
      · intro hmem
        exact ih (seen ++ [a]) x hx2 (by simp [hmem])

theorem firstSeen_subset : ∀ (ls seen : List String) (x : String),
    x ∈ firstSeen seen ls → x ∈ ls := by
  intro ls
  induction ls with
  | nil => intro seen x hx; simp [firstSeen] at hx
  | cons a rest ih =>
    intro seen x hx
    simp only [firstSeen] at hx
    split at hx
    · exact List.mem_cons_of_mem _ (ih seen x hx)
    · rcases List.mem_cons.mp hx with rfl | hx2
      · simp
      · exact List.mem_cons_of_mem _ (ih (seen ++ [a]) x hx2)

theorem firstSeen_nodup : ∀ (ls seen : List String), (firstSeen seen ls).Nodup := by
  intro ls
  induction ls with
  | nil => intro seen; simp [firstSeen]
  | cons a rest ih =>
    intro seen
    simp only [firstSeen]
    split
    · exact ih seen
    · refine List.nodup_cons.mpr ⟨?_, ih (seen ++ [a])⟩
      intro hmem
      exact firstSeen_not_seen rest (seen ++ [a]) a hmem (by simp)

theorem firstSeen_eq_self : ∀ (ls seen : List String), ls.Nodup →
    (∀ x ∈ ls, x ∉ seen) → firstSeen seen ls = ls := by
  intro ls
  induction ls with
  | nil => intro seen _ _; rfl
  | cons a rest ih =>
    intro seen hnd hns
    simp only [firstSeen]
    rw [if_neg (by simp [hns a (by simp)])]
    have hrec := ih (seen ++ [a]) (List.nodup_cons.mp hnd).2 (by
      intro x hx
      simp only [List.mem_append, List.mem_singleton]
      push_neg
      exact ⟨hns x (by simp [hx]), fun h => (List.nodup_cons.mp hnd).1 (h ▸ hx)⟩)
    rw [hrec]

/-! ## Interplay of stripping with the line classifiers -/

theorem mem_takeWhile_pred {p : α → Bool} : ∀ (l : List α) (x : α),
    x ∈ l.takeWhile p → p x = true := by
  intro l
  induction l with
  | nil => intro x hx; simp [List.takeWhile] at hx
  | cons a rest ih =>
    intro x hx
    rw [List.takeWhile_cons] at hx
    split at hx
    · rcases List.mem_cons.mp hx with rfl | hx2
      · assumption
      · exact ih x hx2
    · simp at hx

theorem dropWhile_idem {p : α → Bool} (l : List α) :
    (l.dropWhile p).dropWhile p = l.dropWhile p :=
  dropWhile_eq_self_of_head fun c hc => head?_dropWhile_not l c hc

theorem dropWhile_append_left {p : α → Bool} : ∀ (a b : List α),
    a.dropWhile p ≠ [] → (a ++ b).dropWhile p = a.dropWhile p ++ b := by
  intro a
  induction a with
  | nil => intro b h; exact absurd rfl h
  | cons x xs ih =>
    intro b h
    by_cases hx : p x
    · rw [List.dropWhile_cons_of_pos hx] at h ⊢
      rw [List.cons_append, List.dropWhile_cons_of_pos hx]
      exact ih b h
    · rw [List.dropWhile_cons_of_neg hx] at h ⊢
      rw [List.cons_append, List.dropWhile_cons_of_neg hx]

theorem takeWhile_append_right_nil {q : α → Bool} : ∀ (a b : List α),
    (∀ c ∈ b, q c = false) → (a ++ b).takeWhile q = a.takeWhile q := by
  intro a
  induction a with
  | nil =>
    intro b h
    cases b with
    | nil => rfl
    | cons c cs =>
      simp only [List.nil_append, List.takeWhile_cons, h c (by simp)]
      rfl
  | cons x xs ih =>
    intro b h
    rw [List.cons_append, List.takeWhile_cons, List.takeWhile_cons]
    split
    · rw [ih b h]
    · rfl

theorem dropWhile_eq_strip_append (s : List Char) :
    ∃ t, s.dropWhile pyIsSpace = stripChars s ++ t ∧ ∀ c ∈ t, pyIsSpace c = true := by
  refine ⟨((s.dropWhile pyIsSpace).reverse.takeWhile pyIsSpace).reverse, ?_, ?_⟩
  · unfold stripChars
    conv_lhs => rw [← List.reverse_reverse (s.dropWhile pyIsSpace)]
    rw [← List.reverse_append]
    congr 1
    rw [List.takeWhile_append_dropWhile]
  · intro c hc
    rw [List.mem_reverse] at hc
    exact mem_takeWhile_pred _ c hc

theorem stripChars_append_spaces_right (s t : List Char)
    (h : ∀ c ∈ t, pyIsSpace c = true) : stripChars (s ++ t) = stripChars s := by
  by_cases hs : s.dropWhile pyIsSpace = []
  · have hsall : ∀ x ∈ s, pyIsSpace x = true := by
      rw [List.dropWhile_eq_nil_iff] at hs
      intro x hx
      simpa using hs x hx
    have h1 : (s ++ t).dropWhile pyIsSpace = [] := by
      rw [dropWhile_append_all t hsall, List.dropWhile_eq_nil_iff]
      intro x hx
      simp [h x hx]
    unfold stripChars
    rw [h1, hs]
  · unfold stripChars
    rw [dropWhile_append_left s t hs, List.reverse_append]
    rw [dropWhile_append_all _ (by intro c hc; rw [List.mem_reverse] at hc; exact h c hc)]

theorem stripChars_dropWhile_left (s : List Char) :
    stripChars (s.dropWhile pyIsSpace) = stripChars s := by
  unfold stripChars
  rw [dropWhile_idem]

theorem space_not_nameChar (c : Char) (h : pyIsSpace c = true) : isNameChar c = false := by
  simp only [pyIsSpace, Bool.or_eq_true, beq_iff_eq] at h
  rcases h with ((((rfl | rfl) | rfl) | rfl) | rfl) | rfl
  all_goals rfl

/-- Appending trailing whitespace to a line does not destroy a
successful def-pattern match (the whitespace can neither complete the
def keyword nor extend the captured name). -/
theorem matchDefCore_some_append (u t : List Char) (nm : List Char)
    (ht : ∀ c ∈ t, pyIsSpace c = true) (h : matchDefCore u = some nm) :
    matchDefCore (u ++ t) = some nm := by
  unfold matchDefCore at h ⊢
  by_cases hpre : ("def".data.isPrefixOf u : Bool)
  · rw [if_pos hpre] at h
    have hpre2 : ("def".data.isPrefixOf (u ++ t) : Bool) := by
      rw [List.isPrefixOf_iff_prefix] at hpre ⊢
      exact hpre.trans (List.prefix_append u t)
    rw [if_pos hpre2]
    obtain ⟨u1, hu1⟩ := List.isPrefixOf_iff_prefix.mp hpre
    have hdrop : u.drop 3 = u1 := by rw [← hu1]; rfl
    have hdrop2 : (u ++ t).drop 3 = u1 ++ t := by rw [← hu1]; simp
    rw [hdrop] at h
    rw [hdrop2]
    cases u1 with
    | nil => simp at h
    | cons c rest =>
      simp only [List.cons_append]
      dsimp only at h ⊢
      by_cases hc : pyIsSpace c
      · rw [if_pos hc] at h ⊢
        by_cases hr : rest.dropWhile pyIsSpace = []
        · rw [hr] at h
          simp at h
        · rw [dropWhile_append_left rest t hr]
          rw [takeWhile_append_right_nil _ t
            (fun x hx => space_not_nameChar x (ht x hx))]
          exact h
      · rw [if_neg hc] at h
        exact absurd h (by simp)
  · rw [if_neg hpre] at h
    exact absurd h (by simp)

theorem matchDef_eq_core (l : String) :
    matchDef l = (matchDefCore (l.data.dropWhile pyIsSpace)).map (fun nm => (⟨nm⟩ : String)) := rfl

/-- If a line does not match the def pattern then neither does its
stripped form. -/
theorem matchDefCore_strip_none (l : String) (h : matchDef l = none) :
    matchDefCore (stripChars l.data) = none := by
  rw [matchDef_eq_core] at h
  obtain ⟨t, hsplit, ht⟩ := dropWhile_eq_strip_append l.data
  by_contra hcon
  obtain ⟨nm, hnm⟩ := Option.ne_none_iff_exists.mp hcon
  have h2 := matchDefCore_some_append (stripChars l.data) t nm ht hnm.symm
  rw [← hsplit] at h2
  rw [h2] at h
  simp at h

/-- Matching the def pattern on a line of the shape "  " ++ pstrip l is
the same as matching the core pattern on the stripped line. -/
theorem matchDef_indent_pstrip (l : String) :
    matchDef ("  " ++ pstrip l) =
      (matchDefCore (stripChars l.data)).map (fun nm => (⟨nm⟩ : String)) := by
  rw [matchDef_eq_core]
  congr 2
  have hdata : ("  " ++ pstrip l).data = ' ' :: ' ' :: stripChars l.data := by
    simp [String.data_append]
    rfl
  rw [hdata]
  have hsp : pyIsSpace ' ' = true := rfl
  rw [List.dropWhile_cons_of_pos hsp, List.dropWhile_cons_of_pos hsp]
  exact stripChars_dropWhile l.data

/-- The end-pattern of the procedure scanner accepts exactly the lines
whose stripped content is the word end, leading and trailing whitespace
allowed. -/
theorem isEndLine_iff (l : String) : isEndLine l = true ↔ pstrip l = "end" := by
  constructor
  · intro h
    unfold isEndLine at h
    rw [Bool.and_eq_true] at h
    obtain ⟨h1, h2⟩ := h
    rw [List.isPrefixOf_iff_prefix] at h1
    obtain ⟨t, ht⟩ := h1
    have hdrop : (l.data.dropWhile pyIsSpace).drop 3 = t := by rw [← ht]; rfl
    rw [hdrop] at h2
    have hstrip : stripChars l.data = stripChars (l.data.dropWhile pyIsSpace) :=
      (stripChars_dropWhile_left l.data).symm
    rw [← ht] at hstrip
    rw [stripChars_append_spaces_right _ t (by
      intro c hc
      exact List.all_eq_true.mp h2 c hc)] at hstrip
    show (⟨stripChars l.data⟩ : String) = "end"
    rw [hstrip]
    rfl
  · intro h
    have hdata : stripChars l.data = "end".data := congrArg String.data h
    obtain ⟨t, hsplit, ht⟩ := dropWhile_eq_strip_append l.data
    rw [hdata] at hsplit
    unfold isEndLine
    rw [hsplit, Bool.and_eq_true]
    constructor
    · rw [List.isPrefixOf_iff_prefix]
      exact List.prefix_append _ t
    · have : ("end".data ++ t).drop 3 = t := rfl
      rw [this, List.all_eq_true]
      intro c hc
      exact ht c hc

/-- A line strips to the exact word end iff the step-1 end test accepts
it. -/
theorem isPlainEnd_iff (l : String) : isPlainEnd l = true ↔ pstrip l = "end" := by
  unfold isPlainEnd
  rw [beq_iff_eq]
  constructor
  · intro h
    show (⟨stripChars l.data⟩ : String) = "end"
    rw [h]
  · intro h
    exact congrArg String.data h

theorem prefix_take_eq {w p : List Char} (h : p <+: w) {n : Nat} (hn : n ≤ p.length) :
    w.take n = p.take n := by
  obtain ⟨r, rfl⟩ := h
  rw [List.take_append_of_le_length hn]

/-- Mechanically checked facts about the fixed accessor keyword list:
every keyword is at least three characters, no keyword starts like
class, def or include, and no keyword is a prefix of end. -/
theorem accessor_kw_facts : ∀ kw ∈ accessor_keywords,
    2 ≤ kw.data.length ∧ 3 ≤ kw.data.length ∧ kw.data.take 2 ≠ ['c', 'l'] ∧
    kw.data.take 3 ≠ ['d', 'e', 'f'] ∧ kw.data.take 3 ≠ ['i', 'n', 'c'] ∧
    ¬ kw.data <+: "end".data := by decide

/-- A character list that matches the accessor pattern and starts with a
non-whitespace character is not a class header, not the word end, not an
include directive, and not a def header. -/
theorem accessor_chars_props (w : List Char) (hw : w.dropWhile pyIsSpace = w)
    (h : matchAccessorChars w = true) :
    "class ".data.isPrefixOf w = false ∧ (w == "end".data) = false ∧
      matchIncludeChars w = false ∧ matchDefCore w = none := by
  unfold matchAccessorChars at h
  rw [hw, List.any_eq_true] at h
  obtain ⟨kw, hkw, hmatch⟩ := h
  unfold kwMatchAt at hmatch
  rw [Bool.and_eq_true] at hmatch
  have hpre : kw.data <+: w := List.isPrefixOf_iff_prefix.mp hmatch.1
  obtain ⟨hlen2, hlen3, htake2, htake3d, htake3i, hend⟩ := accessor_kw_facts kw hkw
  refine ⟨?_, ?_, ?_, ?_⟩
  · by_contra hcon
    rw [Bool.not_eq_false] at hcon
    have hcl : "class ".data <+: w := List.isPrefixOf_iff_prefix.mp hcon
    have e1 : w.take 2 = kw.data.take 2 := prefix_take_eq hpre hlen2
    have e2 : w.take 2 = ['c', 'l'] := prefix_take_eq hcl (by simp)
    exact htake2 (e1.symm.trans e2)
  · rw [beq_eq_false_iff_ne]
    intro hcon
    rw [hcon] at hpre
    exact hend hpre
  · unfold matchIncludeChars
    rw [hw]
    by_cases hinc : ("include".data.isPrefixOf w : Bool)
    · exfalso
      have hip : "include".data <+: w := List.isPrefixOf_iff_prefix.mp hinc
      have e1 : w.take 3 = kw.data.take 3 := prefix_take_eq hpre hlen3
      have e2 : w.take 3 = ['i', 'n', 'c'] := prefix_take_eq hip (by simp)
      exact htake3i (e1.symm.trans e2)
    · rw [if_neg hinc]
  · unfold matchDefCore
    by_cases hdef : ("def".data.isPrefixOf w : Bool)
    · exfalso
      have hdp : "def".data <+: w := List.isPrefixOf_iff_prefix.mp hdef
      have e1 : w.take 3 = kw.data.take 3 := prefix_take_eq hpre hlen3
      have e2 : w.take 3 = ['d', 'e', 'f'] := prefix_take_eq hdp (by simp)
      exact htake3d (e1.symm.trans e2)
    · rw [if_neg hdef]

theorem data_indent (a : String) : ("  " ++ a).data = ' ' :: ' ' :: a.data := by
  simp [String.data_append]

theorem stripChars_indent (a : String) :
    stripChars (("  " ++ a).data) = stripChars a.data := by
  rw [data_indent]
  have : (' ' :: ' ' :: a.data) = [' ', ' '] ++ a.data := rfl
  rw [this]
  apply stripChars_spaces_append
  intro c hc
  simp at hc
  subst hc
  rfl

theorem isClassLine_indent (a : String) : isClassLine ("  " ++ a) = isClassLine a := by
  unfold isClassLine
  rw [stripChars_indent]

theorem isPlainEnd_indent (a : String) : isPlainEnd ("  " ++ a) = isPlainEnd a := by
  unfold isPlainEnd
  rw [stripChars_indent]

theorem isIncludeLine_indent (a : String) : isIncludeLine ("  " ++ a) = isIncludeLine a := by
  unfold isIncludeLine
  rw [stripChars_indent]

theorem isAccessorLine_indent (a : String) : isAccessorLine ("  " ++ a) = isAccessorLine a := by
  unfold isAccessorLine
  rw [stripChars_indent]

theorem isClassLine_pstrip (l : String) : isClassLine (pstrip l) = isClassLine l := by
  unfold isClassLine
  rw [pstrip_data, stripChars_idem]

theorem isPlainEnd_pstrip (l : String) : isPlainEnd (pstrip l) = isPlainEnd l := by
  unfold isPlainEnd
  rw [pstrip_data, stripChars_idem]

theorem isIncludeLine_pstrip (l : String) : isIncludeLine (pstrip l) = isIncludeLine l := by
  unfold isIncludeLine
  rw [pstrip_data, stripChars_idem]

theorem isAccessorLine_pstrip (l : String) : isAccessorLine (pstrip l) = isAccessorLine l := by
  unfold isAccessorLine
  rw [pstrip_data, stripChars_idem]

theorem dropWhile_eq_self_of_stripped (a : String) (hs : pstrip a = a) :
    a.data.dropWhile pyIsSpace = a.data := by
  have hd : stripChars a.data = a.data := congrArg String.data hs
  apply dropWhile_eq_self_of_head
  intro c hc
  rw [← hd] at hc
  exact stripChars_head_not_space a.data c hc

/-- Classification of the emitted accessor lines: a stripped string that
matches the accessor pattern is not a class line, not an end line, not
an include line, not a def line, but still an accessor line. -/
theorem accessor_member_props (a : String) (hs : pstrip a = a)
    (h : matchAccessorChars a.data = true) :
    isClassLine a = false ∧ isPlainEnd a = false ∧ isIncludeLine a = false ∧
      matchDef a = none ∧ isAccessorLine a = true := by
  have hd : stripChars a.data = a.data := congrArg String.data hs
  have hw : a.data.dropWhile pyIsSpace = a.data := dropWhile_eq_self_of_stripped a hs
  obtain ⟨p1, p2, p3, p4⟩ := accessor_chars_props a.data hw h
  refine ⟨?_, ?_, ?_, ?_, ?_⟩
  · unfold isClassLine
    rw [hd]
    exact p1
  · unfold isPlainEnd
    rw [hd]
    exact p2
  · unfold isIncludeLine
    rw [hd]
    exact p3
  · rw [matchDef_eq_core, hw, p4]
    rfl
  · unfold isAccessorLine
    rw [hd]
    exact h

/-- Where the emitted accessors come from: each element of the accessor
list of the merge result is the stripped form of an accessor-matching
line of the post-include stream. -/
theorem accessors_mem_spec {L : List String} {a : String}
    (h : a ∈ (mergeLines L).accessors) :
    ∃ l ∈ afterIncludes (contentLines L), isAccessorLine l = true ∧ a = pstrip l := by
  have hacc : (mergeLines L).accessors =
      firstSeen [] (((afterIncludes (contentLines L)).filter
        (fun l => isAccessorLine l)).map pstrip) := by
    show (accessorGo (afterIncludes (contentLines L)) [] []).1 = _
    rw [accessorGo_fst]
    rfl
  rw [hacc] at h
  have h2 := firstSeen_subset _ _ _ h
  rw [List.mem_map] at h2
  obtain ⟨l, hl, rfl⟩ := h2
  rw [List.mem_filter] at hl
  exact ⟨l, hl.1, hl.2, rfl⟩

/-! ## Procedure extraction (step 4) -/

theorem flush_method_none (ms : MethodMap) (l : List String) :
    flush_method ms none l = ms := rfl

theorem flush_method_nil (ms : MethodMap) (curN : Option String) :
    flush_method ms curN [] = ms := by
  cases curN with
  | none => rfl
  | some n => simp [flush_method]

theorem allBlockLines_cons (n : String) (bs : List (List String)) (ms : MethodMap) :
    allBlockLines ((n, bs) :: ms) = bs.flatten ++ allBlockLines ms := by
  simp [allBlockLines]

theorem allBlockLines_fileBlock : ∀ (ms : MethodMap) (n : String) (b : List String),
    List.Perm (allBlockLines (fileBlock ms n b)) (allBlockLines ms ++ b) := by
  intro ms
  induction ms with
  | nil =>
    intro n b
    simp [fileBlock, allBlockLines]
  | cons p rest ih =>
    intro n b
    obtain ⟨m, bs⟩ := p
    by_cases hm : m = n
    · subst hm
      rw [fileBlock, if_pos rfl, allBlockLines_cons, allBlockLines_cons]
      simp only [List.flatten_append, List.flatten_cons, List.flatten_nil, List.append_nil,
        List.append_assoc]
      apply List.Perm.append_left
      exact List.perm_append_comm
    · rw [fileBlock, if_neg hm, allBlockLines_cons, allBlockLines_cons]
      simp only [List.append_assoc]
      exact List.Perm.append_left _ (by simpa using ih n b)

theorem mem_flush_method {ms : MethodMap} {curN : Option String} {curL : List String}
    {x : String} (h : x ∈ allBlockLines (flush_method ms curN curL)) :
    x ∈ allBlockLines ms ∨ x ∈ curL := by
  cases curN with
  | none => exact Or.inl h
  | some n =>
    by_cases hemp : curL.isEmpty
    · rw [show flush_method ms (some n) curL = ms by simp [flush_method, hemp]] at h
      exact Or.inl h
    · rw [show flush_method ms (some n) curL = fileBlock ms n curL by
        simp [flush_method, hemp]] at h
      have := (allBlockLines_fileBlock ms n curL).mem_iff.mp h
      simpa using this

theorem fileBlock_keys : ∀ (ms : MethodMap) (n : String) (b : List String),
    (fileBlock ms n b).map Prod.fst =
      if (ms.map Prod.fst).contains n then ms.map Prod.fst
      else ms.map Prod.fst ++ [n] := by
  intro ms
  induction ms with
  | nil => intro n b; simp [fileBlock]
  | cons p rest ih =>
    intro n b
    obtain ⟨m, bs⟩ := p
    by_cases hm : m = n
    · subst hm
      rw [fileBlock, if_pos rfl]
      simp
    · rw [fileBlock, if_neg hm]
      simp only [List.map_cons, List.contains_cons]
      have hbeq : (n == m) = false := by
        rw [beq_eq_false_iff_ne]
        exact fun h => hm h.symm
      rw [hbeq]
      simp only [Bool.false_or]
      rw [ih n b]
      split
      · rfl
      · simp

theorem methodGo_leftover_mem : ∀ (ls : List String) (inM : Bool) (curN : Option String)
    (curL : List String) (ms : MethodMap) (lo : List String) (x : String),
    x ∈ (methodGo ls inM curN curL ms lo).leftover →
    x ∈ lo ∨ (x ∈ ls ∧ matchDef x = none) := by
  intro ls
  induction ls with
  | nil =>
    intro inM curN curL ms lo x hx
    unfold methodGo at hx
    split at hx
    · exact Or.inl hx
    · exact Or.inl hx
  | cons l rest ih =>
    intro inM curN curL ms lo x hx
    unfold methodGo at hx
    by_cases h1 : ((matchDef l).isSome && !inM : Bool)
    · rw [if_pos h1] at hx
      rcases ih _ _ _ _ _ _ hx with h | h
      · exact Or.inl h
      · exact Or.inr ⟨List.mem_cons_of_mem _ h.1, h.2⟩
    · rw [if_neg h1] at hx
      by_cases h2 : inM
      · rw [if_pos h2] at hx
        split at hx
        all_goals
          rcases ih _ _ _ _ _ _ hx with h | h
          · exact Or.inl h
          · exact Or.inr ⟨List.mem_cons_of_mem _ h.1, h.2⟩
      · rw [if_neg h2] at hx
        rcases ih _ _ _ _ _ _ hx with h | h
        · rcases List.mem_append.mp h with h3 | h3
          · exact Or.inl h3
          · simp at h3
            subst h3
            have hinM : inM = false := Bool.eq_false_iff.mpr h2
            have hds : (matchDef x).isSome = false := by
              by_contra hcon
              rw [Bool.not_eq_false] at hcon
              exact h1 (by rw [hcon, hinM]; rfl)
            exact Or.inr ⟨by simp, Option.not_isSome_iff_eq_none.mp (by simp [hds])⟩
        · exact Or.inr ⟨List.mem_cons_of_mem _ h.1, h.2⟩

theorem methodGo_block_mem : ∀ (ls : List String) (inM : Bool) (curN : Option String)
    (curL : List String) (ms : MethodMap) (lo : List String) (x : String),
    x ∈ allBlockLines (methodGo ls inM curN curL ms lo).methods →
    x ∈ allBlockLines ms ∨ x ∈ curL ∨ x ∈ ls := by
  intro ls
  induction ls with
  | nil =>
    intro inM curN curL ms lo x hx
    unfold methodGo at hx
    split at hx
    · rcases mem_flush_method hx with h | h
      · exact Or.inl h
      · exact Or.inr (Or.inl h)
    · exact Or.inl hx
  | cons l rest ih =>
    intro inM curN curL ms lo x hx
    unfold methodGo at hx
    by_cases h1 : ((matchDef l).isSome && !inM : Bool)
    · rw [if_pos h1] at hx
      rcases ih _ _ _ _ _ _ hx with h | h | h
      · rcases mem_flush_method h with h2 | h2
        · exact Or.inl h2
        · exact Or.inr (Or.inl h2)
      · simp at h
        subst h
        exact Or.inr (Or.inr (by simp))
      · exact Or.inr (Or.inr (List.mem_cons_of_mem _ h))
    · rw [if_neg h1] at hx
      by_cases h2 : inM
      · rw [if_pos h2] at hx
        by_cases h3 : isEndLine l
        · rw [if_pos h3] at hx
          rcases ih _ _ _ _ _ _ hx with h | h | h
          · rcases mem_flush_method h with h4 | h4
            · exact Or.inl h4
            · rcases List.mem_append.mp h4 with h5 | h5
              · exact Or.inr (Or.inl h5)
              · simp at h5
                subst h5
                exact Or.inr (Or.inr (by simp))
          · simp at h
          · exact Or.inr (Or.inr (List.mem_cons_of_mem _ h))
        · rw [if_neg h3] at hx
          rcases ih _ _ _ _ _ _ hx with h | h | h
          · exact Or.inl h
          · rcases List.mem_append.mp h with h5 | h5
            · exact Or.inr (Or.inl h5)
            · simp at h5
              subst h5
              exact Or.inr (Or.inr (by simp))
          · exact Or.inr (Or.inr (List.mem_cons_of_mem _ h))
      · rw [if_neg h2] at hx
        rcases ih _ _ _ _ _ _ hx with h | h | h
        · exact Or.inl h
        · exact Or.inr (Or.inl h)
        · exact Or.inr (Or.inr (List.mem_cons_of_mem _ h))

/-- When no line of the stream matches the def pattern the scanner
stays outside and everything becomes leftover. -/
theorem methodGo_no_def : ∀ (ls : List String) (ms : MethodMap) (lo : List String),
    (∀ l ∈ ls, matchDef l = none) →
    methodGo ls false none [] ms lo = ⟨ms, lo ++ ls⟩ := by
  intro ls
  induction ls with
  | nil => intro ms lo _; simp [methodGo]
  | cons l rest ih =>
    intro ms lo h
    have hl : matchDef l = none := h l (by simp)
    unfold methodGo
    rw [if_neg (by simp [hl])]
    rw [if_neg (by simp)]
    rw [ih ms (lo ++ [l]) fun x hx => h x (by simp [hx])]
    simp

/-- Unfolding of one scanner step while inside a capture: a line
matching the end pattern closes and files the block, anything else is
appended. -/
theorem methodGo_inside_step (l : String) (rest : List String) (n : String)
    (cur : List String) (ms : MethodMap) (lo : List String) :
    methodGo (l :: rest) true (some n) cur ms lo =
      if isEndLine l then
        methodGo rest false none [] (fileBlock ms n (cur ++ [l])) lo
      else methodGo rest true (some n) (cur ++ [l]) ms lo := by
  conv_lhs => unfold methodGo
  rw [if_neg (by simp)]
  rw [if_pos rfl]
  split
  · rw [show flush_method ms (some n) (cur ++ [l]) = fileBlock ms n (cur ++ [l]) by
      simp [flush_method]]
  · rfl

/-- End of input while a capture is open force-files the partial
block. -/
theorem methodGo_eof_flush (n : String) (cur : List String) (ms : MethodMap)
    (lo : List String) (h : cur ≠ []) :
    methodGo [] true (some n) cur ms lo = ⟨fileBlock ms n cur, lo⟩ := by
  unfold methodGo
  rw [if_pos (by simp [h])]
  rw [show flush_method ms (some n) cur = fileBlock ms n cur by
    simp [flush_method, List.isEmpty_eq_true, h]]

theorem perm_mid (A B C : List String) (l : String) :
    List.Perm (A ++ ([l] ++ (B ++ C))) (A ++ (B ++ (l :: C))) := by
  apply List.Perm.append_left
  have h1 : [l] ++ (B ++ C) = l :: (B ++ C) := rfl
  rw [h1]
  have h2 : List.Perm (l :: (B ++ C)) (B ++ (l :: C)) := by
    exact List.Perm.symm List.perm_middle
  exact h2

/-- The scanner neither loses nor duplicates lines: the lines of all
filed blocks together with the leftovers are a permutation of the
initial state plus the input stream. -/
theorem methodGo_perm : ∀ (ls : List String) (inM : Bool) (curN : Option String)
    (curL : List String) (ms : MethodMap) (lo : List String),
    (curN = none → curL = []) → (inM = false → curL = []) →
    (inM = true → curN ≠ none) →
    List.Perm
      (allBlockLines (methodGo ls inM curN curL ms lo).methods ++
        (methodGo ls inM curN curL ms lo).leftover)
      (allBlockLines ms ++ (curL ++ (lo ++ ls))) := by
  intro ls
  induction ls with
  | nil =>
    intro inM curN curL ms lo h1 h2 h3
    unfold methodGo
    by_cases hc : (inM && !curL.isEmpty : Bool)
    · rw [if_pos hc]
      rw [Bool.and_eq_true] at hc
      have hinM : inM = true := hc.1
      obtain ⟨n, hn⟩ : ∃ n, curN = some n := by
        cases curN with
        | none => exact absurd rfl (h3 hinM)
        | some n => exact ⟨n, rfl⟩
      subst hn
      have hne : ¬ curL.isEmpty := by simpa using hc.2
      rw [show flush_method ms (some n) curL = fileBlock ms n curL by
        simp [flush_method, hne]]
      simpa using (allBlockLines_fileBlock ms n curL).append_right lo
    · rw [if_neg hc]
      have hcur : curL = [] := by
        by_cases hinM : inM
        · by_cases hemp : curL.isEmpty
          · simpa using hemp
          · exact absurd (by simp [hinM, hemp]) hc
        · exact h2 (by simpa using hinM)
      subst hcur
      simp
  | cons l rest ih =>
    intro inM curN curL ms lo h1 h2 h3
    unfold methodGo
    by_cases hb1 : ((matchDef l).isSome && !inM : Bool)
    · rw [if_pos hb1]
      rw [Bool.and_eq_true] at hb1
      have hinM : inM = false := by simpa using hb1.2
      have hcur : curL = [] := h2 hinM
      subst hcur
      rw [flush_method_nil]
      have hrec := ih true (matchDef l) [l] ms lo
        (by intro hcon; rw [hcon] at hb1; simp at hb1)
        (by intro hcon; simp at hcon)
        (by intro _; intro hcon; rw [hcon] at hb1; simp at hb1)
      refine hrec.trans ?_
      simp only [List.nil_append]
      exact perm_mid (allBlockLines ms) lo rest l
    · rw [if_neg hb1]
      by_cases hb2 : inM
      · rw [if_pos hb2]
        have hn : ∃ n, curN = some n := by
          cases curN with
          | none => exact absurd rfl (h3 hb2)
          | some n => exact ⟨n, rfl⟩
        obtain ⟨n, rfl⟩ := hn
        by_cases hb3 : isEndLine l
        · rw [if_pos hb3]
          rw [show flush_method ms (some n) (curL ++ [l]) = fileBlock ms n (curL ++ [l]) by
            simp [flush_method]]
          have hrec := ih false none [] (fileBlock ms n (curL ++ [l])) lo
            (fun _ => rfl) (fun _ => rfl) (by intro hcon; simp at hcon)
          refine hrec.trans ?_
          have hstep := (allBlockLines_fileBlock ms n (curL ++ [l])).append_right
            ([] ++ (lo ++ rest))
          refine hstep.trans ?_
          have hmid : List.Perm (l :: (lo ++ rest)) (lo ++ (l :: rest)) :=
            List.Perm.symm List.perm_middle
          have := (hmid.append_left curL).append_left (allBlockLines ms)
          simpa using this
        · rw [if_neg hb3]
          have hrec := ih true (some n) (curL ++ [l]) ms lo
            (by intro hcon; simp at hcon)
            (by simp)
            (by intro _; intro hcon; simp at hcon)
          refine hrec.trans ?_
          have hmid : List.Perm (l :: (lo ++ rest)) (lo ++ (l :: rest)) :=
            List.Perm.symm List.perm_middle
          have := (hmid.append_left curL).append_left (allBlockLines ms)
          simpa using this
      · rw [if_neg hb2]
        have hcur : curL = [] := h2 (by simpa using hb2)
        subst hcur
        have hrec := ih inM curN [] ms (lo ++ [l]) (fun _ => rfl) (fun _ => rfl) h3
        refine hrec.trans ?_
        simp

/-! ## Procedure merge (step 5) -/

theorem mergeBlocks_structure (first : List String) (others : List (List String))
    (h : 2 ≤ first.length) :
    mergeBlocks (first :: others) =
      first.headD "" :: (innerLines first ++
        others.flatMap (fun ob => mergeSeparator :: innerLines ob)) ++
        [first.getLastD ""] := by
  simp only [mergeBlocks]
  rw [if_pos (by omega)]
  cases first with
  | nil => simp at h
  | cons a rest => simp

theorem mergeBlocks_mem : ∀ (bs : List (List String)) (x : String), x ∈ mergeBlocks bs →
    (∃ b ∈ bs, x ∈ b) ∨ x = mergeSeparator ∨ x = "end" ∨ x = "" := by
  intro bs x hx
  cases bs with
  | nil => simp [mergeBlocks] at hx
  | cons first others =>
    have hinner : ∀ (b : List String), ∀ y ∈ innerLines b, y ∈ b := by
      intro b y hy
      unfold innerLines at hy
      exact (List.dropLast_sublist _).mem hy |> (List.drop_sublist 1 b).mem
    have hbody : ∀ y ∈ innerLines first ++
        others.flatMap (fun ob => mergeSeparator :: innerLines ob),
        (∃ b ∈ first :: others, y ∈ b) ∨ y = mergeSeparator := by
      intro y hy
      rcases List.mem_append.mp hy with h1 | h1
      · exact Or.inl ⟨first, by simp, hinner first y h1⟩
      · rw [List.mem_flatMap] at h1
        obtain ⟨ob, hob, hy2⟩ := h1
        rcases List.mem_cons.mp hy2 with rfl | hy3
        · exact Or.inr rfl
        · exact Or.inl ⟨ob, by simp [hob], hinner ob y hy3⟩
    simp only [mergeBlocks] at hx
    split at hx
    · rcases List.mem_append.mp hx with h1 | h1
      · rcases List.mem_append.mp h1 with h2 | h2
        · rcases List.mem_cons.mp (by
            have : first.take 1 = [first.headD ""] := by
              cases first with
              | nil => simp_all
              | cons a r => simp
            rw [this] at h2
            exact h2) with h3 | h3
          · cases first with
            | nil => simp_all
            | cons a r => exact Or.inl ⟨a :: r, by simp, by simp [h3]⟩
          · simp at h3
        · rcases hbody x h2 with h3 | h3
          · exact Or.inl h3
          · exact Or.inr (Or.inl h3)
      · simp at h1
        subst h1
        cases first with
        | nil => exact Or.inr (Or.inr (Or.inr rfl))
        | cons a r =>
          refine Or.inl ⟨a :: r, by simp, ?_⟩
          have hmem : (a :: r).getLastD "" ∈ a :: r := by
            rw [List.getLastD_cons]
            exact List.getLastD_mem_cons r a
          simpa using hmem
    · rcases List.mem_append.mp hx with h1 | h1
      · rcases List.mem_append.mp h1 with h2 | h2
        · cases first with
          | nil => simp at h2
          | cons a r =>
            simp at h2
            exact Or.inl ⟨a :: r, by simp, by simp [h2]⟩
        · rcases hbody x h2 with h3 | h3
          · exact Or.inl h3
          · exact Or.inr (Or.inl h3)
      · simp at h1
        exact Or.inr (Or.inr (Or.inl h1))

/-! ## The chunker -/

theorem batchLoop_mem : ∀ (limit : Nat) (elems : List String) (cur : String)
    (acc : List String) (b : String), count_tokens cur ≤ limit →
    b ∈ batchLoop limit elems cur acc →
    b ∈ acc ∨ count_tokens b ≤ limit ∨
      (b ∈ elems.map pstrip ∧ limit < count_tokens b) := by
  intro limit elems
  induction elems with
  | nil =>
    intro cur acc b hcur hb
    unfold batchLoop at hb
    split at hb
    · exact Or.inl hb
    · rcases List.mem_append.mp hb with h | h
      · exact Or.inl h
      · simp at h
        subst h
        exact Or.inr (Or.inl hcur)
  | cons e rest ih =>
    intro cur acc b hcur hb
    unfold batchLoop at hb
    by_cases h1 : (pstrip e).isEmpty
    · rw [if_pos h1] at hb
      rcases ih cur acc b hcur hb with h | h | h
      · exact Or.inl h
      · exact Or.inr (Or.inl h)
      · exact Or.inr (Or.inr ⟨List.mem_cons_of_mem _ h.1, h.2⟩)
    · rw [if_neg h1] at hb
      by_cases h2 : limit < count_tokens (pstrip e)
      · rw [if_pos h2] at hb
        have hz : count_tokens "" ≤ limit := Nat.zero_le limit
        split at hb
        · rcases ih "" (acc ++ [pstrip e]) b hz hb with h | h | h
          · rcases List.mem_append.mp h with h3 | h3
            · exact Or.inl h3
            · simp at h3
              subst h3
              exact Or.inr (Or.inr ⟨by simp, h2⟩)
          · exact Or.inr (Or.inl h)
          · exact Or.inr (Or.inr ⟨List.mem_cons_of_mem _ h.1, h.2⟩)
        · rcases ih "" (acc ++ [cur, pstrip e]) b hz hb with h | h | h
          · rcases List.mem_append.mp h with h3 | h3
            · exact Or.inl h3
            · rcases List.mem_cons.mp h3 with rfl | h4
              · exact Or.inr (Or.inl hcur)
              · simp at h4
                subst h4
                exact Or.inr (Or.inr ⟨by simp, h2⟩)
          · exact Or.inr (Or.inl h)
          · exact Or.inr (Or.inr ⟨List.mem_cons_of_mem _ h.1, h.2⟩)
      · rw [if_neg h2] at hb
        by_cases h3 : count_tokens cur + count_tokens (pstrip e) ≤ limit
        · rw [if_pos h3] at hb
          have hfit : count_tokens (cur ++ "\n" ++ pstrip e) ≤ limit := by
            rw [count_tokens_append]
            exact h3
          rcases ih _ acc b hfit hb with h | h | h
          · exact Or.inl h
          · exact Or.inr (Or.inl h)
          · exact Or.inr (Or.inr ⟨List.mem_cons_of_mem _ h.1, h.2⟩)
        · rw [if_neg h3] at hb
          have hes : count_tokens (pstrip e) ≤ limit := Nat.le_of_not_lt h2
          rcases ih (pstrip e) (acc ++ [cur]) b hes hb with h | h | h
          · rcases List.mem_append.mp h with h4 | h4
            · exact Or.inl h4
            · simp at h4
              subst h4
              exact Or.inr (Or.inl hcur)
          · exact Or.inr (Or.inl h)
          · exact Or.inr (Or.inr ⟨List.mem_cons_of_mem _ h.1, h.2⟩)

/-- C8: every chunk that the chunker emits either keeps its
whitespace-unit count within the limit or is a single oversized element
emitted alone and verbatim (no truncation); an oversized element first
flushes the pending accumulation (if non-empty) and is then emitted as
its own standalone chunk. -/
theorem claim_C8 :
    (∀ (limit : Nat) (elems : List String) (b : String), b ∈ batches elems limit →
       count_tokens b ≤ limit ∨ (b ∈ elems.map pstrip ∧ limit < count_tokens b))
    ∧ (∀ (limit : Nat) (e : String) (rest : List String) (cur : String)
        (acc : List String), (pstrip e).isEmpty = false →
        limit < count_tokens (pstrip e) →
        batchLoop limit (e :: rest) cur acc =
          batchLoop limit rest ""
            (acc ++ (if cur.isEmpty then [pstrip e] else [cur, pstrip e]))) := by
  constructor
  · intro limit elems b hb
    have h := batchLoop_mem limit elems "" [] b (Nat.zero_le limit) hb
    rcases h with h | h | h
    · simp at h
    · exact Or.inl h
    · exact Or.inr h
  · intro limit e rest cur acc h1 h2
    conv_lhs => unfold batchLoop
    rw [if_neg (by simp [h1]), if_pos h2]
    by_cases hc : cur.isEmpty
    · rw [if_pos hc, if_pos hc]
    · rw [if_neg hc, if_neg hc]

/-- Witness for C8: with limit 1 the two-token element "a b" is
oversized and is emitted alone verbatim; an oversized element with a
pending accumulation flushes the pending chunk first. -/
theorem claim_C8_witness :
    (count_tokens "a b" ≤ 1 ∨
      ("a b" ∈ (["a b"] : List String).map pstrip ∧ 1 < count_tokens "a b"))
    ∧ batchLoop 1 ["c d", "x"] "w" [] =
        batchLoop 1 ["x"] "" ([] ++ (if ("w" : String).isEmpty then [pstrip "c d"]
          else ["w", pstrip "c d"])) := by
  constructor
  · exact claim_C8.1 1 ["a b"] "a b" (by decide)
  · exact claim_C8.2 1 "c d" ["x"] "w" [] (by decide) (by decide)

/-! ## Output assembly helpers -/

theorem getLastD_of_ne_nil_default : ∀ (ys : List String) (d d2 : String), ys ≠ [] →
    ys.getLastD d = ys.getLastD d2 := by
  intro ys d d2 h
  cases ys with
  | nil => exact absurd rfl h
  | cons b r => rw [List.getLastD_cons, List.getLastD_cons]

theorem getLastD_append_of_ne_nil : ∀ (xs ys : List String) (d : String), ys ≠ [] →
    (xs ++ ys).getLastD d = ys.getLastD d := by
  intro xs
  induction xs with
  | nil => intro ys d _; rfl
  | cons a xs ih =>
    intro ys d h
    rw [List.cons_append, List.getLastD_cons, ih ys a h]
    exact (getLastD_of_ne_nil_default ys a d h)

/-! ## Claims -/

/-- C2, counterexample: the input consisting of the lines "class P" and
"end" contains a begin-marker line (so under the claim the fallback
must not apply and only retained lines would be used, i.e. none), yet
the flattening pass retains nothing, so the code takes the whole-input
fallback and the entire input becomes block content. -/
theorem claim_C2_counterexample :
    isClassLine "class P" = true ∧ flattenStep 0 ["class P", "end"] = [] ∧
      contentLines ["class P", "end"] = ["class P", "end"] := by decide

/-- C2, amended: the whole-input fallback applies exactly when the
block-extraction pass retained zero lines.  An input with no
begin-marker line always retains zero lines and hence falls back (this
direction of the original claim holds); but a begin-marker whose blocks
contribute no content lines also triggers the fallback.  The
spec-scenario input without any begin-marker still yields the directive
flag and the accessor via the fallback. -/
theorem claim_C2 :
    (∀ ls : List String, (∀ l ∈ ls, isClassLine l = false) → contentLines ls = ls)
    ∧ (∀ ls : List String, contentLines ls = ls ↔ flattenStep 0 ls = [])
    ∧ (mergeLines ["include PageObject", "link(:x)"]).foundInclude = true
    ∧ (mergeLines ["include PageObject", "link(:x)"]).accessors = ["link(:x)"] := by
  refine ⟨?_, contentLines_eq_self_iff, by decide, by decide⟩
  intro ls h
  exact (contentLines_eq_self_iff ls).mpr (flattenStep_no_class ls h)

/-- Witness for C2 at a concrete marker-free input. -/
theorem claim_C2_witness : contentLines ["x", "include PageObject"] =
    ["x", "include PageObject"] :=
  claim_C2.1 ["x", "include PageObject"] (by decide)

/-- C3, counterexample: inside a capture started by "def go", the
indented line "  end" (which has leading whitespace, so under the claim
it must be appended to the capture) in fact closes the capture: the
filed block is cut at "  end" and the following lines "x" and "end"
land in the leftovers instead of the capture. -/
theorem claim_C3_counterexample :
    methodGo ["def go", "  end", "x", "end"] false none [] [] [] =
      ⟨[("go", [["def go", "  end"]])], ["x", "end"]⟩
    ∧ pyIsSpace (("  end").data.headD ' ') = true
    ∧ isEndLine "  end" = true := by decide

/-- C3, amended: while a capture is in progress, a line closes the
capture if and only if its whitespace-stripped content is exactly the
word end (so leading and trailing whitespace are allowed, per the
pattern of line 221); the closing line is appended to the filed span,
and every other line is appended to the capture. -/
theorem claim_C3 :
    ∀ (l : String) (rest : List String) (n : String) (cur : List String)
      (ms : MethodMap) (lo : List String),
      methodGo (l :: rest) true (some n) cur ms lo =
        if pstrip l = "end" then
          methodGo rest false none [] (fileBlock ms n (cur ++ [l])) lo
        else methodGo rest true (some n) (cur ++ [l]) ms lo := by
  intro l rest n cur ms lo
  rw [methodGo_inside_step]
  by_cases h : pstrip l = "end"
  · rw [if_pos ((isEndLine_iff l).mpr h), if_pos h]
  · rw [if_neg (fun hc => h ((isEndLine_iff l).mp hc)), if_neg h]

/-- C4: for a name whose first filed occurrence has a distinct opening
and closing line, the merged definition is the first occurrence's
opening line, its inner lines, then for every further occurrence the
fixed separator comment followed by that occurrence's inner lines, and
finally the first occurrence's last (closing) line; names are emitted in
first-appearance order (a newly filed name is appended at the end of
the map, an existing name stays in place); and the two-occurrence
scenario merges go with bodies step1, separator, step2. -/
theorem claim_C4 :
    (∀ (first : List String) (others : List (List String)), 2 ≤ first.length →
       mergeBlocks (first :: others) =
         first.headD "" :: (innerLines first ++
           others.flatMap (fun ob => mergeSeparator :: innerLines ob)) ++
           [first.getLastD ""])
    ∧ (∀ (ms : MethodMap) (n : String) (b : List String),
       (fileBlock ms n b).map Prod.fst =
         if (ms.map Prod.fst).contains n then ms.map Prod.fst
         else ms.map Prod.fst ++ [n])
    ∧ (mergeLines ["def go", "step1", "end", "def go", "step2", "end"]).methods =
        [("go", [["def go", "step1", "end"], ["def go", "step2", "end"]])]
    ∧ mergedMethods
        (mergeLines ["def go", "step1", "end", "def go", "step2", "end"]).methods =
        [["def go", "step1", mergeSeparator, "step2", "end"]] := by
  refine ⟨mergeBlocks_structure, fileBlock_keys, by decide, by decide⟩

/-- Witness for C4: the merged two-occurrence scenario computed through
the structural equation. -/
theorem claim_C4_witness :
    mergeBlocks [["def go", "step1", "end"], ["def go", "step2", "end"]] =
      ["def go", "step1", mergeSeparator, "step2", "end"] := by
  have h := claim_C4.1 ["def go", "step1", "end"] [["def go", "step2", "end"]] (by decide)
  rw [h]
  decide

/-- C5: the concrete scenario input merged under the name Login
produces exactly one include PageObject line, exactly one
text_field(:a) line, and one procedure go whose body is the single line
click (the full output string is computed as well; the class end-marker
of the input is consumed by the depth counter before procedure
extraction, so the filed go occurrence is the partial span of its
opening line and body). -/
theorem claim_C5 :
    beautify_ruby_class
        "class P\ninclude PageObject\ntext_field(:a)\ntext_field(:a)\ndef go\nclick\nend\nend"
        "Login" =
      "class Login\n\n  include PageObject\n\n  text_field(:a)\n\n  def go\n  click\n\nend"
    ∧ ((outputLines (mergeLines (splitLinesStr (normalize
        "class P\ninclude PageObject\ntext_field(:a)\ntext_field(:a)\ndef go\nclick\nend\nend")))
        "Login").filter (fun l => pstrip l == "include PageObject")).length = 1
    ∧ ((outputLines (mergeLines (splitLinesStr (normalize
        "class P\ninclude PageObject\ntext_field(:a)\ntext_field(:a)\ndef go\nclick\nend\nend")))
        "Login").filter (fun l => pstrip l == "text_field(:a)")).length = 1
    ∧ (mergeLines (splitLinesStr (normalize
        "class P\ninclude PageObject\ntext_field(:a)\ntext_field(:a)\ndef go\nclick\nend\nend"))).methods =
        [("go", [["def go", "click"]])] := by
  refine ⟨by decide, by decide, by decide, by decide⟩

/-- C7: for every input line list, the emitted accessor list is exactly
the first-seen-order deduplication of the stripped accessor-matching
lines of the content stream, it contains no duplicates, and each
emitted accessor is already stripped (so no two emitted accessors are
equal after trimming and the order is first occurrence order by
construction of firstSeen). -/
theorem claim_C7 (L : List String) :
    (mergeLines L).accessors =
      firstSeen [] (((contentLines L).filter (fun l => isAccessorLine l)).map pstrip)
    ∧ (mergeLines L).accessors.Nodup
    ∧ ∀ a ∈ (mergeLines L).accessors, pstrip a = a := by
  have hinc : ∀ l : String, isAccessorLine l = true → isIncludeLine l = false := by
    intro l h
    have hw := stripChars_dropWhile l.data
    exact (accessor_chars_props (stripChars l.data) hw h).2.2.1
  have hfilter : (afterIncludes (contentLines L)).filter (fun l => isAccessorLine l) =
      (contentLines L).filter (fun l => isAccessorLine l) := by
    unfold afterIncludes
    rw [List.filter_filter]
    apply List.filter_congr
    intro l _
    by_cases h : isAccessorLine l
    · rw [h, hinc l h]
      rfl
    · simp [h]
  have hacc : (mergeLines L).accessors =
      firstSeen [] (((afterIncludes (contentLines L)).filter
        (fun l => isAccessorLine l)).map pstrip) := by
    show (accessorGo (afterIncludes (contentLines L)) [] []).1 = _
    rw [accessorGo_fst]
    rfl
  refine ⟨?_, ?_, ?_⟩
  · rw [hacc, hfilter]
  · rw [hacc]
    exact firstSeen_nodup _ _
  · intro a ha
    obtain ⟨l, _, _, rfl⟩ := accessors_mem_spec ha
    exact pstrip_idem l

/-- C9: the merger is total by construction (every function of the
embedding is structurally recursive); for every input and output name
the assembled output is a non-empty block whose first line opens the
class with the given name and whose last line is the closing end, and
end of input in the middle of a capture files the partial span rather
than failing, as the concrete unterminated input also shows. -/
theorem claim_C9 :
    (∀ (L : List String) (name : String),
      outputLines (mergeLines L) name ≠ [] ∧
      (outputLines (mergeLines L) name).headD "" = "class " ++ name ∧
      (outputLines (mergeLines L) name).getLastD "" = "end")
    ∧ (∀ (n : String) (cur : List String) (ms : MethodMap) (lo : List String),
        cur ≠ [] → methodGo [] true (some n) cur ms lo = ⟨fileBlock ms n cur, lo⟩)
    ∧ (mergeLines ["def go", "click"]).methods = [("go", [["def go", "click"]])] := by
  refine ⟨?_, ?_, by decide⟩
  · intro L name
    refine ⟨by simp [outputLines], rfl, ?_⟩
    unfold outputLines
    rw [getLastD_append_of_ne_nil _ ["end"] "" (by simp)]
    rfl
  · intro n cur ms lo h
    exact methodGo_eof_flush n cur ms lo h

/-- Witness for C9: a concrete end-of-input flush of an open capture. -/
theorem claim_C9_witness :
    methodGo [] true (some "go") ["def go"] [] [] = ⟨[("go", [["def go"]])], []⟩ := by
  have h := claim_C9.2.1 "go" ["def go"] [] [] (by decide)
  rw [h]
  decide

/-- C6, counterexample: in the fallback input with two occurrences of
the procedure go, the second occurrence's opening line "def go(arg)" is
retained block content, but it appears nowhere in the output (the merge
keeps only the first occurrence's opening line and drops subsequent
opening and closing lines), so a retained non-blank line is silently
dropped, contradicting the no-loss claim. -/
theorem claim_C6_counterexample :
    "def go(arg)" ∈ contentLines ["def go", "a", "end", "def go(arg)", "b", "end"]
    ∧ outputLines (mergeLines ["def go", "a", "end", "def go(arg)", "b", "end"]) "A" =
        ["class A", "", "", "  def go", "  a", "  " ++ mergeSeparator, "  b", "  end",
          "", "end"]
    ∧ (outputLines (mergeLines ["def go", "a", "end", "def go(arg)", "b", "end"]) "A").all
        (fun l => !(pstrip l == "def go(arg)")) = true := by decide

/-- C6, amended: every retained line of the content stream is consumed
by exactly one of the four categories: the retained stream is a
permutation of the directive-matching lines, the accessor-matching
lines, the lines of the filed procedure occurrences, and the leftover
lines.  (A line is not guaranteed to reappear verbatim in the output:
duplicate accessor copies collapse to one emitted line, and each
subsequent occurrence of a procedure name loses its opening and closing
lines in the merged definition.) -/
theorem claim_C6 (L : List String) :
    List.Perm (contentLines L)
      (((contentLines L).filter (fun l => isIncludeLine l))
        ++ (((afterIncludes (contentLines L)).filter (fun l => isAccessorLine l))
        ++ (allBlockLines (mergeLines L).methods ++ (mergeLines L).leftover))) := by
  have hafterAcc : (accessorGo (afterIncludes (contentLines L)) [] []).2 =
      (afterIncludes (contentLines L)).filter (fun l => !isAccessorLine l) := by
    rw [accessorGo_snd]
    rfl
  have h3 : List.Perm
      (allBlockLines (mergeLines L).methods ++ (mergeLines L).leftover)
      ((afterIncludes (contentLines L)).filter (fun l => !isAccessorLine l)) := by
    have h := methodGo_perm ((accessorGo (afterIncludes (contentLines L)) [] []).2)
      false none [] [] [] (fun _ => rfl) (fun _ => rfl) (by intro hcon; simp at hcon)
    have h4 : List.Perm
        (allBlockLines (mergeLines L).methods ++ (mergeLines L).leftover)
        ((accessorGo (afterIncludes (contentLines L)) [] []).2) := by
      simpa [allBlockLines] using h
    rw [hafterAcc] at h4
    exact h4
  have h2 : List.Perm (afterIncludes (contentLines L))
      (((afterIncludes (contentLines L)).filter (fun l => isAccessorLine l))
        ++ (allBlockLines (mergeLines L).methods ++ (mergeLines L).leftover)) := by
    have hsplit := List.filter_append_perm (fun l => isAccessorLine l)
      (afterIncludes (contentLines L))
    refine (hsplit.symm).trans ?_
    exact List.Perm.append_left _ h3.symm
  have h1 : List.Perm (contentLines L)
      (((contentLines L).filter (fun l => isIncludeLine l)) ++
        afterIncludes (contentLines L)) := by
    have hsplit := List.filter_append_perm (fun l => isIncludeLine l) (contentLines L)
    exact hsplit.symm
  exact h1.trans (List.Perm.append_left _ h2)

/-! ## Tracing output characters to their sources -/

theorem mergeLines_leftover_src {L : List String} {x : String}
    (h : x ∈ (mergeLines L).leftover) :
    x ∈ contentLines L ∧ matchDef x = none ∧ isIncludeLine x = false ∧
      isAccessorLine x = false := by
  have h1 : x ∈ (methodGo ((accessorGo (afterIncludes (contentLines L)) [] []).2)
      false none [] [] []).leftover := h
  rcases methodGo_leftover_mem _ _ _ _ _ _ _ h1 with h2 | h2
  · simp at h2
  · obtain ⟨h3, hdef⟩ := h2
    rw [accessorGo_snd] at h3
    simp only [List.nil_append] at h3
    rw [List.mem_filter] at h3
    obtain ⟨h4, hacc⟩ := h3
    unfold afterIncludes at h4
    rw [List.mem_filter] at h4
    obtain ⟨h5, hinc⟩ := h4
    exact ⟨h5, hdef, by simpa using hinc, by simpa using hacc⟩

theorem mergeLines_method_src {L : List String} {x : String}
    (h : x ∈ allBlockLines (mergeLines L).methods) : x ∈ contentLines L := by
  have h1 : x ∈ allBlockLines (methodGo
      ((accessorGo (afterIncludes (contentLines L)) [] []).2)
      false none [] [] []).methods := h
  rcases methodGo_block_mem _ _ _ _ _ _ _ h1 with h2 | h2 | h2
  · simp [allBlockLines] at h2
  · simp at h2
  · rw [accessorGo_snd] at h2
    simp only [List.nil_append] at h2
    rw [List.mem_filter] at h2
    have h3 := h2.1
    unfold afterIncludes at h3
    rw [List.mem_filter] at h3
    exact h3.1

theorem mergeLines_accessor_src {L : List String} {a : String}
    (h : a ∈ (mergeLines L).accessors) : ∃ l ∈ contentLines L, a = pstrip l := by
  obtain ⟨l, hl, _, rfl⟩ := accessors_mem_spec h
  unfold afterIncludes at hl
  rw [List.mem_filter] at hl
  exact ⟨l, hl.1, rfl⟩

theorem pstrip_chars_subset {l : String} {c : Char} (h : c ∈ (pstrip l).data) :
    c ∈ l.data := by
  rw [pstrip_data] at h
  exact (stripChars_sublist l.data).mem h

/-- Every character of every assembled output line comes from an input
line, from the supplied class name, or from one of the fixed literals of
the assembly. -/
theorem outputLines_chars {L : List String} {name : String} {x : String} {c : Char}
    (hx : x ∈ outputLines (mergeLines L) name) (hc : c ∈ x.data) :
    (∃ l ∈ L, c ∈ l.data) ∨ c ∈ name.data ∨ c ∈ litChars := by
  have hcontent : ∀ {y : String}, y ∈ contentLines L → c ∈ y.data →
      (∃ l ∈ L, c ∈ l.data) ∨ c ∈ name.data ∨ c ∈ litChars := by
    intro y hy hcy
    exact Or.inl ⟨y, contentLines_subset hy, hcy⟩
  have hindent : ∀ {y : String}, c ∈ ("  " ++ y).data → c = ' ' ∨ c ∈ y.data := by
    intro y hcy
    rw [data_indent] at hcy
    rcases List.mem_cons.mp hcy with rfl | hcy2
    · exact Or.inl rfl
    · rcases List.mem_cons.mp hcy2 with rfl | hcy3
      · exact Or.inl rfl
      · exact Or.inr hcy3
  have hspace : (' ' : Char) ∈ litChars := by decide
  unfold outputLines at hx
  rcases List.mem_append.mp hx with hx1 | hx1
  swap
  · simp at hx1
    subst hx1
    refine Or.inr (Or.inr ?_)
    have : ∀ d ∈ ("end" : String).data, d ∈ litChars := by decide
    exact this c hc
  rcases List.mem_append.mp hx1 with hx2 | hx2
  swap
  · -- leftover section
    split at hx2
    · simp at hx2
    · rcases List.mem_cons.mp hx2 with rfl | hx3
      · refine Or.inr (Or.inr ?_)
        have : ∀ d ∈ ("  # leftover lines that did not belong to any recognized method or accessor" : String).data,
            d ∈ litChars := by decide
        exact this c hc
      · rw [List.mem_map] at hx3
        obtain ⟨l, hl, rfl⟩ := hx3
        rcases hindent hc with rfl | hc2
        · exact Or.inr (Or.inr hspace)
        · rw [List.mem_filter] at hl
          exact hcontent (mergeLines_leftover_src hl.1).1 (pstrip_chars_subset hc2)
  rcases List.mem_append.mp hx2 with hx3 | hx3
  swap
  · -- merged method lines
    rw [List.mem_flatMap] at hx3
    obtain ⟨m, hm, hxm⟩ := hx3
    unfold mergedMethods at hm
    rw [List.mem_map] at hm
    obtain ⟨p, hp, rfl⟩ := hm
    rcases List.mem_append.mp hxm with hx4 | hx4
    swap
    · simp at hx4
      subst hx4
      simp at hc
    rw [List.mem_map] at hx4
    obtain ⟨y, hy, rfl⟩ := hx4
    rcases hindent hc with rfl | hc2
    · exact Or.inr (Or.inr hspace)
    rcases mergeBlocks_mem _ _ hy with h5 | h5 | h5 | h5
    · obtain ⟨b, hb, hyb⟩ := h5
      have hmem : y ∈ allBlockLines (mergeLines L).methods := by
        unfold allBlockLines
        rw [List.mem_flatMap]
        refine ⟨p, (List.mem_filter.mp hp).1, ?_⟩
        rw [List.mem_flatten]
        exact ⟨b, hb, hyb⟩
      exact hcontent (mergeLines_method_src hmem) hc2
    · subst h5
      refine Or.inr (Or.inr ?_)
      have : ∀ d ∈ mergeSeparator.data, d ∈ litChars := by decide
      exact this c hc2
    · subst h5
      refine Or.inr (Or.inr ?_)
      have : ∀ d ∈ ("end" : String).data, d ∈ litChars := by decide
      exact this c hc2
    · subst h5
      simp at hc2
  rcases List.mem_append.mp hx3 with hx4 | hx4
  swap
  · simp at hx4
    subst hx4
    simp at hc
  rcases List.mem_append.mp hx4 with hx5 | hx5
  swap
  · -- accessor lines
    rw [List.mem_map] at hx5
    obtain ⟨a, ha, rfl⟩ := hx5
    rcases hindent hc with rfl | hc2
    · exact Or.inr (Or.inr hspace)
    obtain ⟨l, hl, rfl⟩ := mergeLines_accessor_src ha
    exact hcontent hl (pstrip_chars_subset hc2)
  rcases List.mem_append.mp hx5 with hx6 | hx6
  swap
  · -- include section
    split at hx6
    · rcases List.mem_cons.mp hx6 with rfl | hx7
      · refine Or.inr (Or.inr ?_)
        have : ∀ d ∈ ("  include PageObject" : String).data, d ∈ litChars := by decide
        exact this c hc
      · simp at hx7
        subst hx7
        simp at hc
    · simp at hx6
  · -- header
    rcases List.mem_cons.mp hx6 with rfl | hx7
    · have : ("class " ++ name).data = "class ".data ++ name.data := by
        simp [String.data_append]
      rw [this] at hc
      rcases List.mem_append.mp hc with h7 | h7
      · refine Or.inr (Or.inr ?_)
        have hlit : ∀ d ∈ ("class " : String).data, d ∈ litChars := by decide
        exact hlit c h7
      · exact Or.inr (Or.inl h7)
    · simp at hx7
      subst hx7
      simp at hc

theorem joinNl_mem : ∀ (ls : List (List Char)) (c : Char), c ∈ joinNl ls →
    (∃ l ∈ ls, c ∈ l) ∨ c = '\n' := by
  intro ls
  induction ls with
  | nil => intro c hc; simp [joinNl] at hc
  | cons a as ih =>
    intro c hc
    cases as with
    | nil =>
      exact Or.inl ⟨a, by simp, hc⟩
    | cons b bs =>
      have : joinNl (a :: b :: bs) = a ++ '\n' :: joinNl (b :: bs) := rfl
      rw [this] at hc
      rcases List.mem_append.mp hc with h1 | h1
      · exact Or.inl ⟨a, by simp, h1⟩
      · rcases List.mem_cons.mp h1 with rfl | h2
        · exact Or.inr rfl
        · rcases ih c h2 with ⟨l, hl, hcl⟩ | h3
          · exact Or.inl ⟨l, by simp [hl], hcl⟩
          · exact Or.inr h3

theorem splitLinesStr_chars {s : String} {l : String} (hl : l ∈ splitLinesStr s)
    {c : Char} (hc : c ∈ l.data) : c ∈ s.data := by
  unfold splitLinesStr at hl
  rw [List.mem_map] at hl
  obtain ⟨piece, hp, rfl⟩ := hl
  exact splitNl_mem_chars s.data piece hp c hc

/-- C10: the merger normalizes line endings up front, so it is
insensitive to the line-ending style of its input (merging s equals
merging s with every CRLF and every remaining CR replaced by LF), and a
carriage return in the input never reaches the output: whenever the
supplied class name is CR-free, the whole output is CR-free. -/
theorem claim_C10 :
    (∀ (s name : String),
      beautify_ruby_class s name = beautify_ruby_class (normalize s) name)
    ∧ (∀ (s name : String), '\r' ∉ name.data →
      '\r' ∉ (beautify_ruby_class s name).data) := by
  constructor
  · intro s name
    unfold beautify_ruby_class
    rw [normalize_idem]
  · intro s name hname hcon
    unfold beautify_ruby_class at hcon
    have h1 : ('\r' : Char) ∈ joinNl
        ((outputLines (mergeLines (splitLinesStr (normalize s))) name).map String.data) :=
      hcon
    rcases joinNl_mem _ _ h1 with ⟨ld, hld, hcl⟩ | h2
    · rw [List.mem_map] at hld
      obtain ⟨x, hx, rfl⟩ := hld
      rcases outputLines_chars hx hcl with ⟨l, hl, hcll⟩ | h3 | h3
      · have := splitLinesStr_chars hl hcll
        show False
        have hn : ('\r' : Char) ∈ (normalize s).data := this
        exact normalizeChars_no_cr s.data hn
      · exact hname h3
      · revert h3
        decide
    · exact absurd h2 (by decide)

/-- Witness for C10: an input with CRLF line endings merges to the same
output as its normalized form, and the output of a CR-carrying input is
CR-free. -/
theorem claim_C10_witness :
    beautify_ruby_class "class P\r\nlink(:x)\r\nend" "A" =
      beautify_ruby_class (normalize "class P\r\nlink(:x)\r\nend") "A"
    ∧ '\r' ∉ (beautify_ruby_class "class P\r\nlink(:x)\r\nend" "A").data := by
  constructor
  · exact claim_C10.1 "class P\r\nlink(:x)\r\nend" "A"
  · exact claim_C10.2 "class P\r\nlink(:x)\r\nend" "A" (by decide)

/-! ## Re-merging the assembled output -/

theorem foundInclude_iff (ls : List String) :
    ((!(includesFound ls).isEmpty) = true) ↔ ∃ l ∈ ls, isIncludeLine l = true := by
  constructor
  · intro h
    have h2 : (ls.filter fun l => isIncludeLine l) ≠ [] := by
      intro hcon
      unfold includesFound at h
      rw [hcon] at h
      simp at h
    obtain ⟨l, hl⟩ := List.exists_mem_of_ne_nil _ h2
    rw [List.mem_filter] at hl
    exact ⟨l, hl.1, hl.2⟩
  · rintro ⟨l, hl, hinc⟩
    have hmem : l ∈ ls.filter fun x => isIncludeLine x := List.mem_filter.mpr ⟨hl, hinc⟩
    unfold includesFound
    cases hfil : ls.filter fun x => isIncludeLine x with
    | nil => rw [hfil] at hmem; simp at hmem
    | cons a r => simp [hfil]

theorem mergeLines_foundInclude (L : List String) :
    (mergeLines L).foundInclude = true ↔ ∃ l ∈ contentLines L, isIncludeLine l = true := by
  show (!(includesFound (contentLines L)).isEmpty) = true ↔ _
  exact foundInclude_iff _

theorem isClassLine_header (name : String)
    (h : ∃ ch ∈ name.data, pyIsSpace ch = false) :
    isClassLine ("class " ++ name) = true := by
  unfold isClassLine
  rw [List.isPrefixOf_iff_prefix]
  have hdata : ("class " ++ name).data = "class ".data ++ name.data := by
    simp [String.data_append]
  rw [hdata]
  have hdrop : ("class ".data ++ name.data).dropWhile pyIsSpace =
      "class ".data ++ name.data := by
    apply dropWhile_eq_self_of_head
    intro c hc
    simp at hc
    subst hc
    rfl
  unfold stripChars
  rw [hdrop, List.reverse_append]
  have hne : name.data.reverse.dropWhile pyIsSpace ≠ [] := by
    rw [Ne, List.dropWhile_eq_nil_iff]
    push_neg
    obtain ⟨ch, hch, hsp⟩ := h
    exact ⟨ch, by simp [hch], by simp [hsp]⟩
  rw [dropWhile_append_left _ _ hne, List.reverse_append, List.reverse_reverse]
  exact List.prefix_append _ _

theorem matchDef_indent_stripped (a : String) :
    matchDef ("  " ++ a) = matchDef a := by
  rw [matchDef_eq_core, matchDef_eq_core]
  have h1 : ("  " ++ a).data.dropWhile pyIsSpace = a.data.dropWhile pyIsSpace := by
    rw [data_indent]
    rw [List.dropWhile_cons_of_pos (by rfl), List.dropWhile_cons_of_pos (by rfl)]
  rw [h1]

/-- Bundle of classification facts about an emitted accessor line. -/
theorem mergeLines_accessor_props {L : List String} {a : String}
    (ha : a ∈ (mergeLines L).accessors) :
    pstrip a = a ∧ isClassLine a = false ∧ isPlainEnd a = false ∧
      isIncludeLine a = false ∧ matchDef a = none ∧ isAccessorLine a = true := by
  obtain ⟨l, hl, hacc, rfl⟩ := accessors_mem_spec ha
  have hs : pstrip (pstrip l) = pstrip l := pstrip_idem l
  have hm : matchAccessorChars (pstrip l).data = true := by
    rw [pstrip_data]
    exact hacc
  obtain ⟨p1, p2, p3, p4, p5⟩ := accessor_member_props (pstrip l) hs hm
  exact ⟨hs, p1, p2, p3, p4, p5⟩

theorem accessor_not_include (l : String) (h : isAccessorLine l = true) :
    isIncludeLine l = false :=
  (accessor_chars_props (stripChars l.data) (stripChars_dropWhile l.data) h).2.2.1

theorem afterIncludes_filter_acc (ls : List String) :
    (afterIncludes ls).filter (fun l => isAccessorLine l) =
      ls.filter (fun l => isAccessorLine l) := by
  unfold afterIncludes
  rw [List.filter_filter]
  apply List.filter_congr
  intro l _
  by_cases h : isAccessorLine l
  · rw [h, accessor_not_include l h]
    rfl
  · simp [h]

/-- Re-merging the assembled output of a procedure-free merge preserves
the accessor list, the directive flag and the (empty) method map: the
class header opens one block, the directive, accessor and blank lines
are retained unchanged, the leftover section only produces leftover
lines again, and nothing in the output matches the def pattern. -/
theorem remerge_structure (L : List String) (name : String)
    (hn1 : isClassLine ("class " ++ name) = true)
    (hm : (mergeLines L).methods = []) :
    (mergeLines (outputLines (mergeLines L) name)).accessors =
      (mergeLines L).accessors
    ∧ (mergeLines (outputLines (mergeLines L) name)).foundInclude =
      (mergeLines L).foundInclude
    ∧ (mergeLines (outputLines (mergeLines L) name)).methods =
      (mergeLines L).methods := by
  set r := mergeLines L with hr
  set incSec := (if r.foundInclude then (["  include PageObject", ""] : List String)
    else []) with hinc
  set accSec := r.accessors.map (fun a => "  " ++ a) with haccS
  set lfFil := r.leftover.filter (fun l => !(stripChars l.data).isEmpty) with hlfFil
  set lfSec := (if lfFil.isEmpty then ([] : List String) else
    "  # leftover lines that did not belong to any recognized method or accessor" ::
      lfFil.map (fun l => "  " ++ pstrip l)) with hlfSec
  have haccP : ∀ a ∈ r.accessors, pstrip a = a ∧ isClassLine a = false ∧
      isPlainEnd a = false ∧ isIncludeLine a = false ∧ matchDef a = none ∧
      isAccessorLine a = true := fun a ha => mergeLines_accessor_props ha
  have hincMem : ∀ x ∈ incSec, x = "  include PageObject" ∨ x = "" := by
    intro x hx
    rw [hinc] at hx
    split at hx
    · simp at hx
      exact hx
    · simp at hx
  have hout : outputLines r name =
      ("class " ++ name) :: "" :: (incSec ++ (accSec ++ ([""] ++ (lfSec ++ ["end"])))) := by
    unfold outputLines
    rw [hm]
    rw [← hlfFil, ← hlfSec, ← hinc, ← haccS]
    simp only [mergedMethods, List.filter_nil, List.map_nil, List.flatMap_nil,
      List.append_nil, List.append_assoc, List.cons_append, List.nil_append]
  have hpre_inert : ∀ x ∈ ("" : String) :: (incSec ++ (accSec ++ [""])),
      isClassLine x = false ∧ isPlainEnd x = false := by
    intro x hx
    rcases List.mem_cons.mp hx with rfl | hx1
    · exact ⟨by decide, by decide⟩
    rcases List.mem_append.mp hx1 with hx2 | hx2
    · rcases hincMem x hx2 with rfl | rfl
      · exact ⟨by decide, by decide⟩
      · exact ⟨by decide, by decide⟩
    rcases List.mem_append.mp hx2 with hx3 | hx3
    · rw [haccS, List.mem_map] at hx3
      obtain ⟨a, ha, rfl⟩ := hx3
      obtain ⟨_, p2, p3, _, _, _⟩ := haccP a ha
      rw [isClassLine_indent, isPlainEnd_indent]
      exact ⟨p2, p3⟩
    · simp at hx3
      subst hx3
      exact ⟨by decide, by decide⟩
  have hflat : flattenStep 0 (outputLines r name) =
      ("" :: (incSec ++ (accSec ++ [""]))) ++ flattenStep 1 (lfSec ++ ["end"]) := by
    rw [hout]
    have hsplit : ("" : String) :: (incSec ++ (accSec ++ ([""] ++ (lfSec ++ ["end"])))) =
        ("" :: (incSec ++ (accSec ++ [""]))) ++ (lfSec ++ ["end"]) := by
      simp [List.append_assoc]
    rw [flattenStep]
    rw [if_pos hn1]
    rw [show (0 + 1 : Nat) = 1 from rfl]
    rw [hsplit]
    exact flattenStep_prefix_inert _ _ 1 (by omega) hpre_inert
  have hSmem : ∀ x ∈ flattenStep 1 (lfSec ++ ["end"]),
      isIncludeLine x = false ∧ isAccessorLine x = false ∧ matchDef x = none := by
    intro x hx
    have hx2 : x ∈ lfSec ++ ["end"] := flattenStep_mem hx
    rcases List.mem_append.mp hx2 with hx3 | hx3
    · rw [hlfSec] at hx3
      split at hx3
      · simp at hx3
      · rcases List.mem_cons.mp hx3 with rfl | hx4
        · exact ⟨by decide, by decide, by decide⟩
        · rw [List.mem_map] at hx4
          obtain ⟨l, hl, rfl⟩ := hx4
          rw [hlfFil, List.mem_filter] at hl
          obtain ⟨_, hdef, hincl, haccl⟩ := mergeLines_leftover_src hl.1
          refine ⟨?_, ?_, ?_⟩
          · rw [isIncludeLine_indent, isIncludeLine_pstrip]
            exact hincl
          · rw [isAccessorLine_indent, isAccessorLine_pstrip]
            exact haccl
          · rw [matchDef_indent_pstrip]
            rw [matchDefCore_strip_none l hdef]
            rfl
    · simp at hx3
      subst hx3
      exact ⟨by decide, by decide, by decide⟩
  have hcontent : contentLines (outputLines r name) =
      ("" :: (incSec ++ (accSec ++ [""]))) ++ flattenStep 1 (lfSec ++ ["end"]) := by
    unfold contentLines
    rw [hflat]
    rfl
  have hmemContent : ∀ x ∈ contentLines (outputLines r name),
      x = "" ∨ x ∈ incSec ∨ (∃ a ∈ r.accessors, x = "  " ++ a) ∨
        x ∈ flattenStep 1 (lfSec ++ ["end"]) := by
    intro x hx
    rw [hcontent] at hx
    rcases List.mem_append.mp hx with hx1 | hx1
    · rcases List.mem_cons.mp hx1 with rfl | hx2
      · exact Or.inl rfl
      rcases List.mem_append.mp hx2 with hx3 | hx3
      · exact Or.inr (Or.inl hx3)
      rcases List.mem_append.mp hx3 with hx4 | hx4
      · rw [haccS, List.mem_map] at hx4
        obtain ⟨a, ha, rfl⟩ := hx4
        exact Or.inr (Or.inr (Or.inl ⟨a, ha, rfl⟩))
      · simp at hx4
        exact Or.inl hx4
    · exact Or.inr (Or.inr (Or.inr hx1))
  have hflag : (mergeLines (outputLines r name)).foundInclude = r.foundInclude := by
    by_cases hf : r.foundInclude
    · rw [hf]
      apply (mergeLines_foundInclude _).mpr
      refine ⟨"  include PageObject", ?_, by decide⟩
      rw [hcontent]
      have : ("  include PageObject" : String) ∈ incSec := by
        rw [hinc, if_pos hf]
        simp
      simp [this]
    · have hf2 : r.foundInclude = false := by simpa using hf
      rw [hf2]
      by_contra hcon
      have hcon2 : (mergeLines (outputLines r name)).foundInclude = true := by
        simpa using hcon
      obtain ⟨l, hl, hincl⟩ := (mergeLines_foundInclude _).mp hcon2
      rcases hmemContent l hl with rfl | h1 | ⟨a, ha, rfl⟩ | h1
      · exact absurd hincl (by decide)
      · rw [hinc, hf2] at h1
        simp at h1
      · rw [isIncludeLine_indent] at hincl
        rw [(haccP a ha).2.2.2.1] at hincl
        exact Bool.false_ne_true hincl
      · rw [(hSmem l h1).1] at hincl
        exact Bool.false_ne_true hincl
  have haccNodup : r.accessors.Nodup := by
    have hchr : r.accessors = firstSeen []
        (((afterIncludes (contentLines L)).filter (fun l => isAccessorLine l)).map pstrip) := by
      rw [hr]
      show (accessorGo (afterIncludes (contentLines L)) [] []).1 = _
      rw [accessorGo_fst]
      rfl
    rw [hchr]
    exact firstSeen_nodup _ _
  have hacc2 : (mergeLines (outputLines r name)).accessors = r.accessors := by
    have hchar : (mergeLines (outputLines r name)).accessors =
        firstSeen [] (((afterIncludes (contentLines (outputLines r name))).filter
          (fun l => isAccessorLine l)).map pstrip) := by
      show (accessorGo (afterIncludes (contentLines (outputLines r name))) [] []).1 = _
      rw [accessorGo_fst]
      rfl
    rw [hchar, afterIncludes_filter_acc]
    have hfil2 : (contentLines (outputLines r name)).filter (fun l => isAccessorLine l) =
        accSec := by
      rw [hcontent]
      rw [List.filter_append]
      have hright : (flattenStep 1 (lfSec ++ ["end"])).filter
          (fun l => isAccessorLine l) = [] := by
        rw [List.filter_eq_nil_iff]
        intro x hx
        rw [(hSmem x hx).2.1]
        simp
      rw [hright, List.append_nil]
      show List.filter _ (("" : String) :: (incSec ++ (accSec ++ [""]))) = accSec
      rw [List.filter_cons_of_neg (by decide)]
      rw [List.filter_append]
      have hincFil : incSec.filter (fun l => isAccessorLine l) = [] := by
        rw [List.filter_eq_nil_iff]
        intro x hx
        rcases hincMem x hx with rfl | rfl
        · decide
        · decide
      rw [hincFil, List.nil_append, List.filter_append]
      have haccFil : accSec.filter (fun l => isAccessorLine l) = accSec := by
        rw [List.filter_eq_self]
        intro x hx
        rw [haccS, List.mem_map] at hx
        obtain ⟨a, ha, rfl⟩ := hx
        rw [isAccessorLine_indent]
        exact (haccP a ha).2.2.2.2.2
      rw [haccFil]
      rw [show List.filter (fun l => isAccessorLine l) [""] = [] by decide]
      rw [List.append_nil]
    rw [hfil2]
    have hmap : accSec.map pstrip = r.accessors := by
      rw [haccS, List.map_map]
      have : ∀ a ∈ r.accessors, (pstrip ∘ fun a => "  " ++ a) a = id a := by
        intro a ha
        show pstrip ("  " ++ a) = a
        rw [pstrip_indent]
        exact (haccP a ha).1
      rw [List.map_congr_left this, List.map_id]
    rw [hmap]
    exact firstSeen_eq_self _ _ haccNodup (by simp)
  have hmeth : (mergeLines (outputLines r name)).methods = [] := by
    show (methodGo (accessorGo (afterIncludes (contentLines (outputLines r name)))
      [] []).2 false none [] [] []).methods = []
    rw [accessorGo_snd, List.nil_append]
    have hnodef : ∀ l ∈ (afterIncludes (contentLines (outputLines r name))).filter
        (fun l => !isAccessorLine l), matchDef l = none := by
      intro l hl
      rw [List.mem_filter] at hl
      have hl2 := hl.1
      unfold afterIncludes at hl2
      rw [List.mem_filter] at hl2
      rcases hmemContent l hl2.1 with rfl | h1 | ⟨a, ha, rfl⟩ | h1
      · decide
      · rcases hincMem l h1 with rfl | rfl
        · decide
        · decide
      · rw [matchDef_indent_stripped]
        exact (haccP a ha).2.2.2.2.1
      · exact (hSmem l h1).2.2
    rw [methodGo_no_def _ _ _ hnodef]
  exact ⟨hacc2, hflag, by rw [hmeth, hm]⟩

theorem splitLinesStr_joinLinesStr (ls : List String) (hne : ls ≠ [])
    (h : ∀ l ∈ ls, '\n' ∉ l.data) : splitLinesStr (joinLinesStr ls) = ls := by
  show (splitNl (joinNl (ls.map String.data))).map (fun d => (⟨d⟩ : String)) = ls
  rw [splitNl_joinNl (ls.map String.data) (by simpa using hne) (by
    intro d hd
    rw [List.mem_map] at hd
    obtain ⟨l, hl, rfl⟩ := hd
    exact h l hl)]
  rw [List.map_map]
  have hpt : ∀ l ∈ ls, ((fun d => (⟨d⟩ : String)) ∘ String.data) l = id l := fun l _ => rfl
  rw [List.map_congr_left hpt, List.map_id]

theorem beautify_data_no_cr (s name : String) (hname : '\r' ∉ name.data) :
    '\r' ∉ (beautify_ruby_class s name).data := by
  intro hcon
  unfold beautify_ruby_class at hcon
  have h1 : ('\r' : Char) ∈ joinNl
      ((outputLines (mergeLines (splitLinesStr (normalize s))) name).map String.data) :=
    hcon
  rcases joinNl_mem _ _ h1 with ⟨ld, hld, hcl⟩ | h2
  · rw [List.mem_map] at hld
    obtain ⟨x, hx, rfl⟩ := hld
    rcases outputLines_chars hx hcl with ⟨l, hl, hcll⟩ | h3 | h3
    · exact normalizeChars_no_cr s.data (splitLinesStr_chars hl hcll)
    · exact hname h3
    · revert h3
      decide
  · exact absurd h2 (by decide)

theorem normalize_beautify (s name : String) (hname : '\r' ∉ name.data) :
    normalize (beautify_ruby_class s name) = beautify_ruby_class s name := by
  show (⟨normalizeChars (beautify_ruby_class s name).data⟩ : String) = _
  rw [normalizeChars_eq_self _ (beautify_data_no_cr s name hname)]

/-- C1, counterexample: merging X = "def a\nx\nend\ndef b\ny\nend" files
the two procedures a and b, but re-merging the textual output files
only a: the indented closing end of the first merged procedure closes
the class block opened by the output header, so everything after it
(including procedure b) is dropped by block extraction.  The
procedure-name sets of merge(X, A) and merge(merge-text, A) differ, so
re-merging is not semantically idempotent. -/
theorem claim_C1_counterexample :
    ((mergeLines (splitLinesStr (normalize "def a\nx\nend\ndef b\ny\nend"))).methods).map
        Prod.fst = ["a", "b"]
    ∧ ((mergeLines (splitLinesStr (normalize (beautify_ruby_class
        "def a\nx\nend\ndef b\ny\nend" "A")))).methods).map Prod.fst = ["a"] := by
  decide

/-- C1, amended: re-merging the textual output under the same name is
semantically idempotent for inputs on which merge files no procedure
occurrences (and a class name that is newline-free, carriage-return-free
and not all whitespace): the accessor list, the directive flag and the
(empty) procedure map are preserved exactly, hence so are the accessor
set, the procedure-name set and every per-procedure body.  When
procedures are present the property fails, as the counterexample
shows. -/
theorem claim_C1 (s name : String)
    (h1 : '\n' ∉ name.data) (h2 : '\r' ∉ name.data)
    (h3 : ∃ ch ∈ name.data, pyIsSpace ch = false)
    (h4 : (mergeLines (splitLinesStr (normalize s))).methods = []) :
    (mergeLines (splitLinesStr (normalize (beautify_ruby_class s name)))).accessors =
      (mergeLines (splitLinesStr (normalize s))).accessors
    ∧ (mergeLines (splitLinesStr (normalize (beautify_ruby_class s name)))).foundInclude =
      (mergeLines (splitLinesStr (normalize s))).foundInclude
    ∧ (mergeLines (splitLinesStr (normalize (beautify_ruby_class s name)))).methods =
      (mergeLines (splitLinesStr (normalize s))).methods := by
  have hLnl : ∀ l ∈ splitLinesStr (normalize s), '\n' ∉ l.data := by
    intro l hl
    unfold splitLinesStr at hl
    rw [List.mem_map] at hl
    obtain ⟨p, hp, rfl⟩ := hl
    exact splitNl_mem_no_nl _ p hp
  have hroundtrip : splitLinesStr (normalize (beautify_ruby_class s name)) =
      outputLines (mergeLines (splitLinesStr (normalize s))) name := by
    rw [normalize_beautify s name h2]
    show splitLinesStr (joinLinesStr
      (outputLines (mergeLines (splitLinesStr (normalize s))) name)) = _
    apply splitLinesStr_joinLinesStr
    · simp [outputLines]
    · intro l hl hnl
      rcases outputLines_chars hl hnl with ⟨l2, hl2, hc2⟩ | hc2 | hc2
      · exact hLnl l2 hl2 hc2
      · exact h1 hc2
      · revert hc2
        decide
  rw [hroundtrip]
  exact remerge_structure (splitLinesStr (normalize s)) name
    (isClassLine_header name h3) h4

/-- Witness for C1 at a procedure-free concrete input. -/
theorem claim_C1_witness :
    (mergeLines (splitLinesStr (normalize (beautify_ruby_class
      "include PageObject\nlink(:x)" "A")))).accessors =
      (mergeLines (splitLinesStr (normalize "include PageObject\nlink(:x)"))).accessors
    ∧ (mergeLines (splitLinesStr (normalize (beautify_ruby_class
      "include PageObject\nlink(:x)" "A")))).foundInclude =
      (mergeLines (splitLinesStr (normalize "include PageObject\nlink(:x)"))).foundInclude
    ∧ (mergeLines (splitLinesStr (normalize (beautify_ruby_class
      "include PageObject\nlink(:x)" "A")))).methods =
      (mergeLines (splitLinesStr (normalize "include PageObject\nlink(:x)"))).methods := by
  exact claim_C1 "include PageObject\nlink(:x)" "A" (by decide) (by decide)
    ⟨'A', by decide, by decide⟩ (by decide)

end ENTH
